import Mathlib

/-!
Verification development for the dependency-analysis core of
`loopy/kernel/dependency.py`: the access-relation extractor
(`AccessMapFinder`), the lexicographic happens-before seeder
(`add_lexicographic_happens_after`) and the data-dependency computation
(`compute_data_dependencies`).

The isl set/relation library is embedded shallowly: an isl set is a list of
dimension names together with a membership predicate on integer tuples
(`List Int`), and an isl map carries input and output dimension name lists
plus a binary membership predicate.  Parameter dimensions are not modelled:
kernels are taken with concrete integer loop bounds, so `knl.assumptions`
is trivial and `isl.align_two` (which aligns parameter dimensions only) is
the identity.
-/

set_option autoImplicit false

namespace LoopyDep

/-- An integer tuple (a point of an isl set, or one side of an isl map). -/
abbrev Pt := List Int

/-- Shallow embedding of an `isl.Set`: ordered, named dimensions and a
membership predicate on integer tuples. -/
structure IslSet where
  names : List String
  mem : Pt → Prop

/-- Shallow embedding of an `isl.Map`: named input and output dimensions
and a binary membership predicate. -/
structure IslMap where
  inNames : List String
  outNames : List String
  mem : Pt → Pt → Prop

/-- Index of the first occurrence of a name in a dimension-name list
(`length` when absent), mirroring isl's lookup of a dimension by name. -/
def nameIdx : List String → String → Nat
  | [], _ => 0
  | m :: rest, n => if m = n then 0 else nameIdx rest n + 1

/-- Value of the dimension called `n` in the tuple `z`, dimensions named by
`names`.  This is what `isl.affs_from_space(...)[n]` evaluates to at a
point of the set. -/
def valAt (names : List String) (z : Pt) (n : String) : Int :=
  (z.get? (nameIdx names n)).getD 0

/-- The apostrophe appended to a dimension name by
`make_inames_unique` / the `set_dim_name(... + "'")` loops. -/
def primeMark : String := "\x27"

/-- Rename a dimension name to its primed version. -/
def prime (n : String) : String := n ++ primeMark

/-- Source: `isl.Map.from_domain_and_range(s, t)`: the cross product of two sets as
a map. -/
def fromDomainAndRange (s t : IslSet) : IslMap :=
  ⟨s.names, t.names, fun x y => s.mem x ∧ t.mem y⟩

/-- The `set_dim_name(dim_type.out, idim, name + "'")` loop of
`add_lexicographic_happens_after`, and `make_inames_unique` of
`compute_data_dependencies`: prime every output dimension name. -/
def primeOutNames (m : IslMap) : IslMap :=
  { m with outNames := m.outNames.map prime }

/-- Source: `happens_before.move_dims(dim_type.out, 0, dim_type.in_, 0, n).range()`:
view a map as a set over its input dimensions followed by its output
dimensions. -/
def IslMap.toCombinedSet (m : IslMap) : IslSet :=
  ⟨m.inNames ++ m.outNames,
   fun z => m.mem (z.take m.inNames.length) (z.drop m.inNames.length)⟩

/-- Source: `isl.Map.from_range(s).move_dims(dim_type.in_, 0, dim_type.out, 0, n)`:
split the first `n` dimensions of a set back off as map inputs. -/
def mapFromCombinedSet (s : IslSet) (n : Nat) : IslMap :=
  ⟨s.names.take n, s.names.drop n, fun x y => s.mem (x ++ y)⟩

/-- Intersection of two maps (`&` on `isl.Map`). -/
def IslMap.inter (a b : IslMap) : IslMap :=
  ⟨a.inNames, a.outNames, fun x y => a.mem x y ∧ b.mem x y⟩

/-- Union of two maps (`|=` on `isl.Map`). -/
def IslMap.union (a b : IslMap) : IslMap :=
  ⟨a.inNames, a.outNames, fun x y => a.mem x y ∨ b.mem x y⟩

/-- Difference of two maps (`-` on `isl.Map`). -/
def IslMap.diff (a b : IslMap) : IslMap :=
  ⟨a.inNames, a.outNames, fun x y => a.mem x y ∧ ¬ b.mem x y⟩

/-- Source: `dependency.identity(dependency.get_space())`: the identity map on a
map's space, relating every tuple to itself. -/
def IslMap.identityOf (m : IslMap) : IslMap :=
  ⟨m.inNames, m.outNames, fun x y => x = y⟩

/-- Source: `isl.Map.reverse`. -/
def IslMap.reverse (m : IslMap) : IslMap :=
  ⟨m.outNames, m.inNames, fun x y => m.mem y x⟩

/-- Source: `isl.Map.apply_range`: relational composition `{x -> z : ∃ y, x -> y ∈ a,
y -> z ∈ b}`. -/
def IslMap.applyRange (a b : IslMap) : IslMap :=
  ⟨a.inNames, b.outNames, fun x z => ∃ y, a.mem x y ∧ b.mem y z⟩

/-- Strict lexicographic order on integer tuples: some position `k` is
strictly smaller on the left while all earlier positions agree. -/
def lexLtVals (u v : Pt) : Prop :=
  ∃ k, k < u.length ∧ k < v.length ∧
    (∀ j, j < k → (u.get? j).getD 0 = (v.get? j).getD 0) ∧
    (u.get? k).getD 0 < (v.get? k).getD 0

/-- Source: `map1.lex_lt_map(map2)`: relates `x` in the domain of `map1` to `y` in
the domain of `map2` whenever some image of `x` under `map1` is
lexicographically strictly smaller than some image of `y` under `map2`. -/
def IslMap.lexLtMap (m1 m2 : IslMap) : IslMap :=
  ⟨m1.inNames, m2.inNames,
   fun x y => ∃ u v, m1.mem x u ∧ m2.mem y v ∧ lexLtVals u v⟩

/-- Source: `isl.Map.get_space`, as far as it is observable in this embedding: the
pair of dimension-name lists (the `lex_map.space != unordered_deps.space`
test compares these). -/
def IslMap.space (m : IslMap) : List String × List String :=
  (m.inNames, m.outNames)

/-- Source: `isl.Map.is_empty`. -/
def IslMap.IsEmpty (m : IslMap) : Prop :=
  ∀ x y, ¬ m.mem x y

/- ## Expressions and statements -/

/-- The pymbolic expression fragment traversed by `AccessMapFinder`:
variables, integer constants, sums, products, subscripts, linear
subscripts, reductions and type casts.  Sub-array references (which
`map_sub_array_ref` rejects with `NotImplementedError`) are outside the
embedded fragment. -/
inductive Expr where
  | var (name : String)
  | intConst (k : Int)
  | add (a b : Expr)
  | mul (a b : Expr)
  | subscript (aggregate : String) (indices : List Expr)
  | linearSubscript (aggregate : String) (index : Expr)
  | reduction (body : Expr)
  | typeCast (child : Expr)

/-- Modelled from the spec: an index expression is convertible to an
affine relation exactly when it is built from loop indices, integer
constants, sums, and products with a constant factor; anything else is an
"undecidable access". -/
def isAffine : Expr → Bool
  | .var _ => true
  | .intConst _ => true
  | .add a b => isAffine a && isAffine b
  | .mul (.intConst _) b => isAffine b
  | .mul a (.intConst _) => isAffine a
  | _ => false

/-- Integer evaluation of an (affine) index expression in an environment
assigning values to loop indices.  Non-affine constructors evaluate to `0`;
they are ruled out by the `isAffine` gate before this is used. -/
def evalE (env : String → Int) : Expr → Int
  | .var n => env n
  | .intConst k => k
  | .add a b => evalE env a + evalE env b
  | .mul a b => evalE env a * evalE env b
  | .subscript _ _ => 0
  | .linearSubscript _ _ => 0
  | .reduction _ => 0
  | .typeCast _ => 0

/-- Modelled from the spec: `loopy.symbolic.get_access_map` (not under
`src/`) converts a statement's iteration domain and an index tuple into
the exact relation from iteration vectors to accessed index tuples; the
output dimensions of an access map are anonymous. -/
def accessRel (dom : IslSet) (idxs : List Expr) : IslMap :=
  ⟨dom.names, idxs.map (fun _ => ""),
   fun x c => dom.mem x ∧ c = idxs.map (evalE (valAt dom.names x))⟩

/-- Modelled from the spec: `get_access_map` fails with an
"undecidable access" condition when an index expression is not affine. -/
def getAccessMap (dom : IslSet) (idxs : List Expr) : Except String IslMap :=
  if idxs.all isAffine then .ok (accessRel dom idxs)
  else .error ("undecidable access")

/-- A `HappensAfter` edge.  Modelled from the spec (the class lives in
`loopy.kernel.instruction`, not under `src/`): an optional variable name
(`none` for a purely lexicographic edge) and an instances relation.  These
two fields are exactly the ones constructed (`HappensAfter(variable,
deps)`, `HappensAfter(None, happens_before)`) and consumed
(`variable_name`, `instances_rel`) by the source. -/
structure HappensAfter where
  variable_name : Option String
  instances_rel : IslMap

/-- A statement's `happens_after` mapping: dependency-target statement id
to edge. -/
def HAMap := String → Option HappensAfter

/-- The empty `happens_after` mapping. -/
def haEmpty : HAMap := fun _ => none

/-- Source: `dict.update({k: e})`: point update of a `happens_after` mapping. -/
def updateHA (m : HAMap) (k : String) (e : HappensAfter) : HAMap :=
  fun q => if q = k then some e else m q

/-- A loopy statement (instruction), with the fields the dependency pass
reads: id, assignment target, right-hand side, enclosing inames, and its
`happens_after` map. -/
structure Stmt where
  id : String
  assignee : Expr
  expression : Expr
  within_inames : List String
  happens_after : HAMap

/-- A loopy kernel: its ordered statement list and its iteration-domain
lookup (`knl.get_inames_domain`), keyed by a statement's
`within_inames`. -/
structure Kernel where
  instructions : List Stmt
  inamesDomain : List String → IslSet

/- ## AccessMapFinder -/

/-- The `access_maps` state of an `AccessMapFinder`: a
`defaultdict(lambda: defaultdict(lambda: None))`, i.e. a total lookup from
(instruction id, variable name) to an optional access map, where every
missing entry reads as `None`. -/
def AMFState := String → String → Option IslMap

/-- The initial (empty) `access_maps` state. -/
def emptySt : AMFState := fun _ _ => none

/-- The recording step of `AccessMapFinder.map_subscript`: union the new
access map into the stored one if an access map is already present
(`self.access_maps[insn.id][arg_name] |= access_map`), otherwise store it. -/
def recordAccess (st : AMFState) (iid v : String) (m : IslMap) : AMFState :=
  fun i w =>
    if i = iid ∧ w = v then
      match st iid v with
      | some old => some (old.union m)
      | none => some m
    else st i w

mutual
/-- The `UncachedWalkMapper` traversal of `AccessMapFinder` over one
expression for one instruction: visit children, and at each subscript
derive its access map (`get_access_map(domain, subscript,
assumptions)`) and record it.  `map_linear_subscript` recurses into the
index only; `map_reduction` and `map_type_cast` recurse into the body /
operand (traversal behaviour modelled from the spec where the generic
`WalkMapper` is not under `src/`). -/
def walk (dom : IslSet) (iid : String) : AMFState → Expr → Except String AMFState
  | st, .var _ => .ok st
  | st, .intConst _ => .ok st
  | st, .add a b => do
      let st1 ← walk dom iid st a
      walk dom iid st1 b
  | st, .mul a b => do
      let st1 ← walk dom iid st a
      walk dom iid st1 b
  | st, .subscript agg idxs => do
      let st1 ← walkList dom iid st idxs
      let am ← getAccessMap dom idxs
      .ok (recordAccess st1 iid agg am)
  | st, .linearSubscript _ idx => walk dom iid st idx
  | st, .reduction body => walk dom iid st body
  | st, .typeCast child => walk dom iid st child

/-- Traversal of a list of child expressions, left to right. -/
def walkList (dom : IslSet) (iid : String) : AMFState → List Expr → Except String AMFState
  | st, [] => .ok st
  | st, e :: rest => do
      let st1 ← walk dom iid st e
      walkList dom iid st1 rest
end

/-- Source: `AccessMapFinder.get_map`.  The source wraps the lookup in
`try ... except KeyError: raise RuntimeError(...)`, but because
`access_maps` is a `defaultdict` of `defaultdict`s a missing key never
raises `KeyError` — the lookup materialises the default `None` instead —
so the error branch is unreachable and the call always returns the stored
optional map. -/
def getMap (st : AMFState) (iid v : String) : Except String (Option IslMap) :=
  .ok (st iid v)

/-- Run the `AccessMapFinder` over one instruction: `amf(insn.assignee,
insn)` followed by `amf(insn.expression, insn)`, with the domain obtained
from `self.kernel.get_inames_domain(insn.within_inames)`. -/
def runInsn (K : Kernel) (st : AMFState) (s : Stmt) : Except String AMFState := do
  let st1 ← walk (K.inamesDomain s.within_inames) s.id st s.assignee
  walk (K.inamesDomain s.within_inames) s.id st1 s.expression

/-- Run the `AccessMapFinder` over every instruction of a kernel (the
`for insn in knl.instructions` loop of `compute_data_dependencies`). -/
def runAMF (K : Kernel) : Except String AMFState :=
  K.instructions.foldlM (runInsn K) emptySt

/-- The access-map state of a kernel whose extraction succeeds (all
subscripts affine); the empty state otherwise. -/
def runAMFState (K : Kernel) : AMFState :=
  match runAMF K with
  | .ok st => st
  | .error _ => emptySt

/- ## compute_data_dependencies -/

mutual
/-- Variables collected by `read_dependency_names` /
`write_dependency_names` from one expression: every variable occurring in
it, including subscript aggregates and index variables.  Modelled from the
spec (`loopy.kernel.instruction` is not under `src/`). -/
def exprDeps : Expr → List String
  | .var n => [n]
  | .intConst _ => []
  | .add a b => exprDeps a ++ exprDeps b
  | .mul a b => exprDeps a ++ exprDeps b
  | .subscript agg idxs => agg :: exprDepsList idxs
  | .linearSubscript agg idx => agg :: exprDeps idx
  | .reduction body => exprDeps body
  | .typeCast child => exprDeps child

/-- Dependency names of a list of expressions. -/
def exprDepsList : List Expr → List String
  | [] => []
  | e :: rest => exprDeps e ++ exprDepsList rest
end

/-- Modelled from the spec: `insn.write_dependency_names()` — the
variables the statement writes through its assignment target. -/
def Stmt.writeDependencyNames (s : Stmt) : List String := exprDeps s.assignee

/-- Modelled from the spec: `insn.read_dependency_names()` — the variables
the statement reads through its right-hand side. -/
def Stmt.readDependencyNames (s : Stmt) : List String := exprDeps s.expression

/-- Source: `accesses[insn.id]`: the read and write dependency names of a
statement, minus its own inames. -/
def accessesOf (s : Stmt) : List String :=
  ((s.readDependencyNames ++ s.writeDependencyNames).dedup).filter
    (fun v => v ∉ s.within_inames)

/-- Modelled from the spec: `knl.reader_map()` — variable name to the ids
of the statements that read it. -/
def readerIds (K : Kernel) (v : String) : List String :=
  (K.instructions.filter (fun s => v ∈ s.readDependencyNames)).map Stmt.id

/-- Modelled from the spec: `knl.writer_map()` — variable name to the ids
of the statements that write it. -/
def writerIds (K : Kernel) (v : String) : List String :=
  (K.instructions.filter (fun s => v ∈ s.writeDependencyNames)).map Stmt.id

/-- Source: `reader_map.get(variable, set()) | writer_map.get(variable, set())`:
all ids of statements that access a variable. -/
def accessedBy (K : Kernel) (v : String) : List String :=
  (readerIds K v ++ writerIds K v).dedup

/-- Source: `get_unordered_deps`: compose one statement's access map with the
reverse of the other's (`frm.apply_range(to.reverse())`) and remove the
identity pairing. -/
def getUnorderedDeps (frm dst : IslMap) : IslMap :=
  let dependency := frm.applyRange dst.reverse
  dependency.diff dependency.identityOf

/-- Source: `make_inames_unique`: prime the output dimension names of a map. -/
def makeInamesUnique (r : IslMap) : IslMap := primeOutNames r

/-- The body of the dependency computation once both access maps are in
hand: `unordered_deps = get_unordered_deps(before_map, after_map)`,
`lex_map = unordered_deps.lex_lt_map(unordered_deps)`, rename the output
inames of both when their spaces disagree (with `isl.align_two`, which
only aligns the parameter dimensions not modelled here, as the identity),
and finally `deps = unordered_deps & lex_map`. -/
def depsRaw (bm am : IslMap) : IslMap :=
  if (IslMap.lexLtMap (getUnorderedDeps bm am) (getUnorderedDeps bm am)).space =
      (getUnorderedDeps bm am).space then
    (getUnorderedDeps bm am).inter
      (IslMap.lexLtMap (getUnorderedDeps bm am) (getUnorderedDeps bm am))
  else
    (makeInamesUnique (getUnorderedDeps bm am)).inter
      (makeInamesUnique
        (IslMap.lexLtMap (getUnorderedDeps bm am) (getUnorderedDeps bm am)))

/-- The per-(statement pair, variable) dependence relation of
`compute_data_dependencies`: look up both access maps and combine them via
`depsRaw`.  `none` when either access map was never recorded — in the
source that lookup yields `None` and the subsequent `apply_range` on it
fails, so no result is produced. -/
def depsOf (st : AMFState) (bid v aid : String) : Option IslMap :=
  match st bid v, st aid v with
  | some beforeMap, some afterMap => some (depsRaw beforeMap afterMap)
  | _, _ => none

/-- The (variable, partner id) pairs visited by the two nested loops
(`for variable in accesses[before_insn.id]`, `for after_insn in
accessed_by`) for one statement, in visit order. -/
def updEntries (K : Kernel) (b : Stmt) : List (String × String) :=
  (accessesOf b).flatMap fun v => (accessedBy K v).map fun a => (v, a)

/-- Big-step semantics of the edge-recording loop of
`compute_data_dependencies` for one statement: starting from the
accumulated `new_happens_after` map `acc`, process the remaining
(variable, partner) entries — skip an entry whose dependence relation is
empty, otherwise overwrite the entry for that partner id with
`HappensAfter(variable, deps)` — and end in the map `m`. -/
def BuildsHA (st : AMFState) (bid : String) :
    List (String × String) → HAMap → HAMap → Prop
  | [], acc, m => m = acc
  | (v, a) :: rest, acc, m =>
      ∃ d, depsOf st bid v a = some d ∧
        ((d.IsEmpty ∧ BuildsHA st bid rest acc m) ∨
         (¬ d.IsEmpty ∧ BuildsHA st bid rest (updateHA acc a ⟨some v, d⟩) m))

/-- One statement's transformation by `compute_data_dependencies`:
its `happens_after` is replaced wholesale by a map built from the empty
dictionary by the recording loop. -/
def StmtResult (K : Kernel) (st : AMFState) (b b' : Stmt) : Prop :=
  ∃ m, BuildsHA st b.id (updEntries K b) haEmpty m ∧
    b' = { b with happens_after := m }

/-- Source: `compute_data_dependencies` as a relation between input and output
kernels: the access-map finder runs over all instructions, then every
statement is replaced by its copy with the newly computed
`happens_after`. -/
def ComputeDataDeps (K K' : Kernel) : Prop :=
  ∃ st, runAMF K = .ok st ∧
    List.Forall₂ (StmtResult K st) K.instructions K'.instructions ∧
    K'.inamesDomain = K.inamesDomain

/- ## add_lexicographic_happens_after -/

/-- One `innermost_set` of the lexicographic loop: the strict inequality
at position `iinnermost` of the shared order, intersected (by the inner
`for outer_iname in shared_inames_order[:iinnermost]` loop) with equality
at every earlier shared iname. -/
def innermostSet (names : List String) (outer : List String) (iname : String) :
    Pt → Prop :=
  outer.foldl
    (fun s o => fun z => s z ∧ valAt names z o = valAt names z (prime o))
    (fun z => valAt names z iname < valAt names z (prime iname))

/-- The outer lexicographic loop: starting from `lex_set` = `acc` with the
inames in `pref` already processed, union in one `innermost_set` per
remaining shared iname. -/
def lexSetGo (names : List String) :
    List String → List String → (Pt → Prop) → (Pt → Prop)
  | _, [], acc => acc
  | pref, iname :: rest, acc =>
      lexSetGo names (pref ++ [iname]) rest
        (fun z => acc z ∨ innermostSet names pref iname z)

/-- Source: `lex_set`: starting from the empty set, the union over all positions
`k` of the shared order of "equal before `k`, strictly less at `k`". -/
def lexSetOf (names : List String) (order : List String) : Pt → Prop :=
  lexSetGo names [] order (fun _ => False)

/-- The instances relation of one seeded edge of
`add_lexicographic_happens_after`: the cross product of the predecessor's
and successor's iteration domains, with the successor (output) dimensions
renamed to primed names, intersected with the lexicographic condition on
the shared inames (ordered as they appear in the successor's domain, which
the source asserts equals their order in the predecessor's domain). -/
def lexEdgeRel (K : Kernel) (sb sa : Stmt) : IslMap :=
  let shared := sa.within_inames.filter (fun n => n ∈ sb.within_inames)
  let domainBefore := K.inamesDomain sb.within_inames
  let domainAfter := K.inamesDomain sa.within_inames
  let happensBefore := primeOutNames (fromDomainAndRange domainBefore domainAfter)
  let nB := happensBefore.inNames.length
  let happensBeforeSet := happensBefore.toCombinedSet
  let order := domainAfter.names.filter (fun n => n ∈ shared)
  let lexS : IslSet := ⟨happensBeforeSet.names, lexSetOf happensBeforeSet.names order⟩
  let lexM := mapFromCombinedSet lexS nB
  happensBefore.inter lexM

/-- The copy of a statement produced for index ≥ 1: its `happens_after`
is replaced by the singleton map sending the immediate predecessor's id to
a variable-less edge with the seeded instances relation. -/
def withLexEdge (K : Kernel) (prev s : Stmt) : Stmt :=
  { s with happens_after :=
      fun k => if k = prev.id then some ⟨none, lexEdgeRel K prev s⟩ else none }

/-- The `shared_inames_order_after` of a statement pair: the shared inames
in the order they occur in the successor's domain (the order the lexicographic
construction uses once the assert has passed). -/
def orderOf (K : Kernel) (sb sa : Stmt) : List String :=
  (K.inamesDomain sa.within_inames).names.filter
    (fun n => n ∈ sa.within_inames.filter (fun m => m ∈ sb.within_inames))

/-- The `shared_inames_order_before` of a statement pair: the shared inames
in the order they occur in the predecessor's domain. -/
def orderBeforeOf (K : Kernel) (sb sa : Stmt) : List String :=
  (K.inamesDomain sb.within_inames).names.filter
    (fun n => n ∈ sa.within_inames.filter (fun m => m ∈ sb.within_inames))

/-- The tail of the instruction loop of `add_lexicographic_happens_after`:
each statement after the first gets the seeded edge to its immediate
predecessor in the original instruction list.  The source's
`assert shared_inames_order_after == shared_inames_order_before` is
modelled by the `Option`: when some pair's shared-iname orders disagree
the assertion fails (Python raises `AssertionError`) and the pass
produces no kernel at all, embedded as `none`. -/
def addLexGo (K : Kernel) : Stmt → List Stmt → Option (List Stmt)
  | _, [] => some []
  | prev, s :: rest =>
      if orderOf K prev s = orderBeforeOf K prev s then
        (addLexGo K s rest).map (fun l => withLexEdge K prev s :: l)
      else none

/-- Source: `add_lexicographic_happens_after`: the first statement is unchanged,
every later statement is paired with its immediate predecessor; `none`
when the order-agreement assertion fails for some adjacent pair. -/
def addLexHA (K : Kernel) : Option Kernel :=
  match K.instructions with
  | [] => some { K with instructions := [] }
  | s0 :: rest =>
      (addLexGo K s0 rest).map (fun l => { K with instructions := s0 :: l })

mutual
/-- The textual subscript accesses of variable `v` inside one expression,
as the list of their index tuples, in traversal order (`a[i+1] + a[i-1]`
contributes `[i+1]` and then `[i-1]` for `v = a`). -/
def subsOf (v : String) : Expr → List (List Expr)
  | .var _ => []
  | .intConst _ => []
  | .add a b => subsOf v a ++ subsOf v b
  | .mul a b => subsOf v a ++ subsOf v b
  | .subscript agg idxs =>
      subsOfList v idxs ++ (if agg = v then [idxs] else [])
  | .linearSubscript _ idx => subsOf v idx
  | .reduction body => subsOf v body
  | .typeCast child => subsOf v child

/-- Subscript accesses of `v` in a list of expressions. -/
def subsOfList (v : String) : List Expr → List (List Expr)
  | [] => []
  | e :: rest => subsOf v e ++ subsOfList v rest
end

/-- Membership in an optional access map: the map is present and contains
the pair. -/
def optMem (o : Option IslMap) (x c : Pt) : Prop :=
  ∃ m, o = some m ∧ m.mem x c

/- ## Concrete kernels used as test inputs -/

/-- The one-dimensional iteration domain `{ [i] : 0 <= i < k }`. -/
def domN (k : Int) : IslSet :=
  ⟨["i"], fun x => x.length = 1 ∧ 0 ≤ x.getD 0 0 ∧ x.getD 0 0 < k⟩

/-- The two-dimensional iteration domain `{ [i, j] : 0 <= i, j < 2 }`. -/
def dom2d : IslSet :=
  ⟨["i", "j"], fun x => x.length = 2 ∧ 0 ≤ x.getD 0 0 ∧ x.getD 0 0 < 2 ∧
    0 ≤ x.getD 1 0 ∧ x.getD 1 0 < 2⟩

/-- The empty domain used for iname sets no concrete kernel owns. -/
def noDomain (l : List String) : IslSet := ⟨l, fun _ => False⟩

/-- Source: `s1: a[i] = i` over `0 <= i < 2`. -/
def sK2a : Stmt := ⟨"s1", .subscript "a" [.var "i"], .var "i", ["i"], haEmpty⟩

/-- Source: `s2: b[i] = a[i] + 1` over `0 <= i < 2`. -/
def sK2b : Stmt :=
  ⟨"s2", .subscript "b" [.var "i"],
   .add (.subscript "a" [.var "i"]) (.intConst 1), ["i"], haEmpty⟩

/-- A two-statement kernel over the same loop `i`. -/
def K2 : Kernel :=
  ⟨[sK2a, sK2b], fun l => if l = ["i"] then domN 2 else noDomain l⟩

/-- Source: `t1: a[i] = 0`, nested in loop `i` only. -/
def sAsymA : Stmt := ⟨"t1", .subscript "a" [.var "i"], .intConst 0, ["i"], haEmpty⟩

/-- Source: `t2: b[i,j] = 0`, nested in loops `i` and `j`. -/
def sAsymB : Stmt :=
  ⟨"t2", .subscript "b" [.var "i", .var "j"], .intConst 0, ["i", "j"], haEmpty⟩

/-- A kernel whose two adjacent statements have different nesting depths:
the predecessor lives in `{ [i] }`, the successor in `{ [i, j] }`. -/
def Kasym : Kernel :=
  ⟨[sAsymA, sAsymB],
   fun l => if l = ["i"] then domN 2 else if l = ["i", "j"] then dom2d else noDomain l⟩

/-- The kernel produced by `add_lexicographic_happens_after` on `K2`. -/
def K2Out : Kernel :=
  ⟨[sK2a, withLexEdge K2 sK2a sK2b], K2.inamesDomain⟩

/-- The kernel produced by `add_lexicographic_happens_after` on `Kasym`
(its one adjacent pair shares only `i`, so the order-agreement assertion
passes). -/
def KasymOut : Kernel :=
  ⟨[sAsymA, withLexEdge Kasym sAsymA sAsymB], Kasym.inamesDomain⟩

/-- A domain presenting the inames `j, i` in that order. -/
def domJI : IslSet :=
  ⟨["j", "i"], fun x => x.length = 2 ∧ 0 ≤ x.getD 0 0 ∧ x.getD 0 0 < 2 ∧
    0 ≤ x.getD 1 0 ∧ x.getD 1 0 < 2⟩

/-- Source: `d1: x = 0`, inside loops whose domain lists `i` before `j`. -/
def sDisA : Stmt := ⟨"d1", .var "x", .intConst 0, ["i", "j"], haEmpty⟩

/-- Source: `d2: y = 0`, inside the same two loops, but with a domain that
lists `j` before `i`. -/
def sDisB : Stmt := ⟨"d2", .var "y", .intConst 0, ["j", "i"], haEmpty⟩

/-- A kernel whose two adjacent statements order their shared inames
differently (`[i, j]` versus `[j, i]`): on it the source's
order-agreement assertion fails. -/
def Kdis : Kernel :=
  ⟨[sDisA, sDisB],
   fun l => if l = ["i", "j"] then dom2d else if l = ["j", "i"] then domJI
     else noDomain l⟩

/-- Source: `s: a[i] = a[i+1]` over `0 <= i < 3`: a statement with a genuine
cross-iteration dependence on itself. -/
def sSelf : Stmt :=
  ⟨"s", .subscript "a" [.var "i"],
   .subscript "a" [.add (.var "i") (.intConst 1)], ["i"], haEmpty⟩

/-- The single-statement kernel around `sSelf`. -/
def Kself : Kernel :=
  ⟨[sSelf], fun l => if l = ["i"] then domN 3 else noDomain l⟩

/-- Source: `s1: a[i] = b[i]` over `0 <= i < 3`. -/
def s6a : Stmt :=
  ⟨"s1", .subscript "a" [.var "i"], .subscript "b" [.var "i"], ["i"], haEmpty⟩

/-- Source: `s2: a[i-1] = b[i-1]` over `0 <= i < 3`: shares both `a` and `b` with
`s6a`, with non-trivial dependences through each. -/
def s6b : Stmt :=
  ⟨"s2", .subscript "a" [.add (.var "i") (.intConst (-1))],
   .subscript "b" [.add (.var "i") (.intConst (-1))], ["i"], haEmpty⟩

/-- A kernel in which one statement pair shares two distinct variables. -/
def K6 : Kernel :=
  ⟨[s6a, s6b], fun l => if l = ["i"] then domN 3 else noDomain l⟩

/-- Source: `u1: c[i] = b[i]` over `0 <= i < 3`: reads `b`, writes only `c`. -/
def s8a : Stmt :=
  ⟨"u1", .subscript "c" [.var "i"], .subscript "b" [.var "i"], ["i"], haEmpty⟩

/-- Source: `u2: d[i-1] = b[i-1]` over `0 <= i < 3`: reads `b`, writes only `d`. -/
def s8b : Stmt :=
  ⟨"u2", .subscript "d" [.add (.var "i") (.intConst (-1))],
   .subscript "b" [.add (.var "i") (.intConst (-1))], ["i"], haEmpty⟩

/-- A kernel in which the only shared variable `b` is read by both
statements and written by neither. -/
def K8 : Kernel :=
  ⟨[s8a, s8b], fun l => if l = ["i"] then domN 3 else noDomain l⟩

/-- Source: `r: a[i] = a[i+1] + a[i-1]` over `0 <= i < 10`: three textual accesses
to the same array in one statement. -/
def sC3 : Stmt :=
  ⟨"r", .subscript "a" [.var "i"],
   .add (.subscript "a" [.add (.var "i") (.intConst 1)])
        (.subscript "a" [.add (.var "i") (.intConst (-1))]), ["i"], haEmpty⟩

/-- The single-statement kernel around `sC3`. -/
def KC3 : Kernel :=
  ⟨[sC3], fun l => if l = ["i"] then domN 10 else noDomain l⟩

/-- The access-map state after the `AccessMapFinder` has walked only the
right-hand side of `sC3` (its read accesses). -/
def stC3 : AMFState :=
  match walk (domN 10) "r" emptySt sC3.expression with
  | .ok st => st
  | .error _ => emptySt

/-- The access-map state after a full `AccessMapFinder` pass over `sC3`
(assignment target and right-hand side). -/
def stFullC3 : AMFState :=
  match runInsn KC3 emptySt sC3 with
  | .ok st => st
  | .error _ => emptySt

/-- The read relation asserted by the claim's example, following its words:
`{[i]->[i+1] : 0 <= i < 9}` union `{[i]->[i-1] : 1 <= i < 10}`. -/
def claimedReadRelC3 : IslMap :=
  ⟨["i"], [""],
   fun x c => ∃ a : Int, x = [a] ∧
     ((0 ≤ a ∧ a < 9 ∧ c = [a + 1]) ∨ (1 ≤ a ∧ a < 10 ∧ c = [a - 1]))⟩

/-- The seeded instances relation as the claim describes it, following its
words for comparison with the source-derived `lexEdgeRel`: the cross
product of the two iteration domains with the predecessor side renamed to
primed names — hence oriented from the later statement (input) to the
earlier one (primed output) — intersected with the lexicographic condition
in which the predecessor's shared indices are strictly less at the first
differing position. -/
def claimedC1Rel (K : Kernel) (sb sa : Stmt) : IslMap :=
  ⟨(K.inamesDomain sa.within_inames).names,
   (K.inamesDomain sb.within_inames).names.map prime,
   fun x y =>
     (K.inamesDomain sa.within_inames).mem x ∧
     (K.inamesDomain sb.within_inames).mem y ∧
     ∃ k, k < (orderOf K sb sa).length ∧
       (∀ o ∈ (orderOf K sb sa).take k,
         valAt (K.inamesDomain sb.within_inames).names y o =
           valAt (K.inamesDomain sa.within_inames).names x o) ∧
       valAt (K.inamesDomain sb.within_inames).names y ((orderOf K sb sa).getD k "") <
         valAt (K.inamesDomain sa.within_inames).names x ((orderOf K sb sa).getD k "")⟩

/-- The access map of a statement accessing `a[i]` over `0 <= i < 3`. -/
def relVar3 : IslMap := accessRel (domN 3) [.var "i"]

/-- The access map of a statement accessing `a[i-1]` over `0 <= i < 3`. -/
def relShift3 : IslMap := accessRel (domN 3) [.add (.var "i") (.intConst (-1))]

/-- The dependence relation between an `[i]` access and an `[i-1]` access
over `0 <= i < 3` (non-empty: it relates iteration 0 to iteration 1). -/
def dShift3 : IslMap := depsRaw relVar3 relShift3

/-- The dependence relation between two identical `[i]` accesses (empty
after the identity pairing is removed). -/
def dSame3 : IslMap := depsRaw relVar3 relVar3

/-- The access map recorded for `(s, a)` in `Kself`: the union of the
write access `[i]` and the read access `[i+1]`. -/
def mSelfA : IslMap :=
  (accessRel (domN 3) [.var "i"]).union
    (accessRel (domN 3) [.add (.var "i") (.intConst 1)])

/-- The self-dependence relation of `sSelf` (non-empty). -/
def dSelf : IslMap := depsRaw mSelfA mSelfA

/-- The `happens_after` map computed for `sSelf`: a single edge from `s`
back to `s` itself. -/
def mSelf : HAMap := updateHA haEmpty "s" ⟨some "a", dSelf⟩

/-- The kernel produced by `compute_data_dependencies` on `Kself`. -/
def KselfOut : Kernel :=
  ⟨[{ sSelf with happens_after := mSelf }], Kself.inamesDomain⟩

/-- The `happens_after` map computed for `s6a` in `K6`: the `b` edge to
`s2` is recorded first and then overwritten by the `a` edge. -/
def mK6 : HAMap :=
  updateHA (updateHA haEmpty "s2" ⟨some "b", dShift3⟩) "s2" ⟨some "a", dShift3⟩

/-- The `happens_after` map computed for `s8a` in `K8`: one edge to `u2`
through the read-only variable `b`. -/
def m8 : HAMap := updateHA haEmpty "u2" ⟨some "b", dShift3⟩

/-- A statement-to-map assignment used to probe that
`compute_data_dependencies` ignores pre-existing `happens_after` maps. -/
def mapHA (K : Kernel) (f : Stmt → HAMap) : Kernel :=
  ⟨K.instructions.map (fun s => { s with happens_after := f s }), K.inamesDomain⟩

/- ## Helper lemmas: name lookup and tuple values -/

theorem nameIdx_lt_length : ∀ {l : List String} {n : String}, n ∈ l →
    nameIdx l n < l.length := by
  intro l
  induction l with
  | nil => intro n h; cases h
  | cons m rest ih =>
      intro n h
      by_cases hm : m = n
      · simp [nameIdx, hm]
      · rcases List.mem_cons.mp h with h | h
        · exact absurd h.symm hm
        · simpa [nameIdx, hm, Nat.succ_lt_succ_iff] using ih h

theorem nameIdx_append_left (l2 : List String) : ∀ {l1 : List String} {n : String},
    n ∈ l1 → nameIdx (l1 ++ l2) n = nameIdx l1 n := by
  intro l1
  induction l1 with
  | nil => intro n h; cases h
  | cons m rest ih =>
      intro n h
      by_cases hm : m = n
      · simp [nameIdx, hm]
      · rcases List.mem_cons.mp h with h | h
        · exact absurd h.symm hm
        · simp [nameIdx, hm, ih h]

theorem nameIdx_append_right (l2 : List String) : ∀ {l1 : List String} {n : String},
    n ∉ l1 → nameIdx (l1 ++ l2) n = l1.length + nameIdx l2 n := by
  intro l1
  induction l1 with
  | nil => intro n _; simp [nameIdx]
  | cons m rest ih =>
      intro n h
      have hm : ¬ m = n := fun e => h (by simp [e])
      have hr : n ∉ rest := fun e => h (by simp [e])
      simp [nameIdx, hm, ih hr]
      omega

theorem prime_injective {a b : String} (h : prime a = prime b) : a = b := by
  have hd : a.data ++ primeMark.data = b.data ++ primeMark.data := by
    have := congrArg String.data h
    simpa [prime, String.data_append] using this
  have : a.data = b.data := List.append_cancel_right hd
  cases a; cases b; exact congrArg String.mk this

theorem nameIdx_map_prime (l : List String) (n : String) :
    nameIdx (l.map prime) (prime n) = nameIdx l n := by
  induction l with
  | nil => simp [nameIdx]
  | cons m rest ih =>
      by_cases hm : m = n
      · simp [nameIdx, hm]
      · have : ¬ prime m = prime n := fun e => hm (prime_injective e)
        simp [nameIdx, hm, this, ih]

theorem valAt_append_left {l1 l2 : List String} {x y : Pt} {n : String}
    (hmem : n ∈ l1) (hx : x.length = l1.length) :
    valAt (l1 ++ l2) (x ++ y) n = valAt l1 x n := by
  have hidx := nameIdx_append_left l2 hmem
  have hlt : nameIdx l1 n < x.length := hx ▸ nameIdx_lt_length hmem
  simp only [valAt, hidx]
  rw [List.get?_eq_getElem?, List.get?_eq_getElem?,
    List.getElem?_append_left hlt]

theorem valAt_append_primed {l1 l2 : List String} {x y : Pt} {n : String}
    (hfresh : prime n ∉ l1) (hx : x.length = l1.length) :
    valAt (l1 ++ l2.map prime) (x ++ y) (prime n) = valAt l2 y n := by
  have hidx := nameIdx_append_right (l2.map prime) hfresh
  have h2 := nameIdx_map_prime l2 n
  have hge : x.length ≤ l1.length + nameIdx (l2.map prime) (prime n) := by omega
  simp only [valAt, hidx, h2]
  rw [List.get?_eq_getElem?, List.get?_eq_getElem?,
    List.getElem?_append_right (by omega : x.length ≤ l1.length + nameIdx l2 n)]
  have harith : l1.length + nameIdx l2 n - x.length = nameIdx l2 n := by omega
  rw [harith]

/- ## Helper lemmas: the lexicographic set construction -/

theorem foldl_and_iff (g : String → Pt → Prop) :
    ∀ (l : List String) (P : Pt → Prop) (z : Pt),
      (l.foldl (fun s o => fun w => s w ∧ g o w) P) z ↔ P z ∧ ∀ o ∈ l, g o z := by
  intro l
  induction l with
  | nil => intro P z; simp
  | cons a rest ih =>
      intro P z
      simp only [List.foldl_cons]
      rw [ih]
      constructor
      · rintro ⟨⟨hP, ha⟩, hrest⟩
        refine ⟨hP, ?_⟩
        intro o ho
        rcases List.mem_cons.mp ho with h | h
        · cases h; exact ha
        · exact hrest o h
      · rintro ⟨hP, hall⟩
        exact ⟨⟨hP, hall a (by simp)⟩, fun o ho => hall o (by simp [ho])⟩

theorem innermostSet_iff (names : List String) (outer : List String)
    (iname : String) (z : Pt) :
    innermostSet names outer iname z ↔
      valAt names z iname < valAt names z (prime iname) ∧
      ∀ o ∈ outer, valAt names z o = valAt names z (prime o) := by
  exact foldl_and_iff (fun o w => valAt names w o = valAt names w (prime o)) outer _ z

theorem lexSetGo_iff (names : List String) :
    ∀ (rest pref : List String) (acc : Pt → Prop) (z : Pt),
      lexSetGo names pref rest acc z ↔
        acc z ∨ ∃ k, k < rest.length ∧
          innermostSet names (pref ++ rest.take k) (rest.getD k "") z := by
  intro rest
  induction rest with
  | nil => intro pref acc z; simp [lexSetGo]
  | cons a rest ih =>
      intro pref acc z
      show lexSetGo names (pref ++ [a]) rest
        (fun w => acc w ∨ innermostSet names pref a w) z ↔ _
      rw [ih]
      constructor
      · rintro ((h | h) | ⟨k, hk, hin⟩)
        · exact Or.inl h
        · exact Or.inr ⟨0, by simp, by simpa using h⟩
        · refine Or.inr ⟨k + 1, by simpa using hk, ?_⟩
          simpa [List.append_assoc] using hin
      · rintro (h | ⟨k, hk, hin⟩)
        · exact Or.inl (Or.inl h)
        · rcases k with _ | k
          · exact Or.inl (Or.inr (by simpa using hin))
          · refine Or.inr ⟨k, by simpa using hk, ?_⟩
            simpa [List.append_assoc] using hin

theorem lexSetOf_iff (names : List String) (order : List String) (z : Pt) :
    lexSetOf names order z ↔
      ∃ k, k < order.length ∧
        (∀ o ∈ order.take k, valAt names z o = valAt names z (prime o)) ∧
        valAt names z (order.getD k "") < valAt names z (prime (order.getD k "")) := by
  rw [lexSetOf, lexSetGo_iff]
  constructor
  · rintro (h | ⟨k, hk, hin⟩)
    · cases h
    · rw [innermostSet_iff] at hin
      exact ⟨k, hk, by simpa using hin.2, hin.1⟩
  · rintro ⟨k, hk, heq, hlt⟩
    exact Or.inr ⟨k, hk, (innermostSet_iff _ _ _ _).2 ⟨hlt, by simpa using heq⟩⟩

theorem getD_mem {l : List String} {k : Nat} (h : k < l.length) :
    l.getD k "" ∈ l := by
  have he : l.getD k "" = l[k] := by
    simp [List.getD_eq_getElem?_getD, List.getElem?_eq_getElem h]
  rw [he]
  exact List.getElem_mem h

/- ## The seeded edge relation, characterised -/

theorem lexEdgeRel_mem (K : Kernel) (sb sa : Stmt) (x y : Pt)
    (hx : x.length = (K.inamesDomain sb.within_inames).names.length)
    (hord : ∀ n ∈ orderOf K sb sa, n ∈ (K.inamesDomain sb.within_inames).names)
    (hfresh : ∀ n ∈ orderOf K sb sa,
      prime n ∉ (K.inamesDomain sb.within_inames).names) :
    (lexEdgeRel K sb sa).mem x y ↔
      ((K.inamesDomain sb.within_inames).mem x ∧
       (K.inamesDomain sa.within_inames).mem y) ∧
      ∃ k, k < (orderOf K sb sa).length ∧
        (∀ o ∈ (orderOf K sb sa).take k,
          valAt (K.inamesDomain sb.within_inames).names x o =
            valAt (K.inamesDomain sa.within_inames).names y o) ∧
        valAt (K.inamesDomain sb.within_inames).names x ((orderOf K sb sa).getD k "") <
          valAt (K.inamesDomain sa.within_inames).names y ((orderOf K sb sa).getD k "") := by
  set dB := K.inamesDomain sb.within_inames with hdB
  set dA := K.inamesDomain sa.within_inames with hdA
  have horder : (lexEdgeRel K sb sa).mem x y ↔
      (dB.mem x ∧ dA.mem y) ∧
      lexSetOf (dB.names ++ dA.names.map prime) (orderOf K sb sa) (x ++ y) := by
    exact Iff.rfl
  rw [horder, lexSetOf_iff]
  have hval : ∀ n ∈ orderOf K sb sa,
      valAt (dB.names ++ dA.names.map prime) (x ++ y) n = valAt dB.names x n ∧
      valAt (dB.names ++ dA.names.map prime) (x ++ y) (prime n) = valAt dA.names y n := by
    intro n hn
    exact ⟨valAt_append_left (hord n hn) hx, valAt_append_primed (hfresh n hn) hx⟩
  constructor
  · rintro ⟨hcross, k, hk, heq, hlt⟩
    refine ⟨hcross, k, hk, ?_, ?_⟩
    · intro o ho
      have hmem : o ∈ orderOf K sb sa := List.mem_of_mem_take ho
      have := hval o hmem
      rw [← this.1, ← this.2]
      exact heq o ho
    · have hmem : (orderOf K sb sa).getD k "" ∈ orderOf K sb sa :=
        getD_mem hk
      have := hval _ hmem
      rw [← this.1, ← this.2]
      exact hlt
  · rintro ⟨hcross, k, hk, heq, hlt⟩
    refine ⟨hcross, k, hk, ?_, ?_⟩
    · intro o ho
      have hmem : o ∈ orderOf K sb sa := List.mem_of_mem_take ho
      have := hval o hmem
      rw [this.1, this.2]
      exact heq o ho
    · have hmem : (orderOf K sb sa).getD k "" ∈ orderOf K sb sa :=
        getD_mem hk
      have := hval _ hmem
      rw [this.1, this.2]
      exact hlt

/- ## Indexing the output of add_lexicographic_happens_after -/

theorem addLexGo_get? (K : Kernel) :
    ∀ (l : List Stmt) (prev : Stmt) (out : List Stmt),
      addLexGo K prev l = some out →
      ∀ (n : Nat) (sb sa : Stmt),
        (prev :: l).get? n = some sb → l.get? n = some sa →
        out.get? n = some (withLexEdge K sb sa) ∧
        orderOf K sb sa = orderBeforeOf K sb sa := by
  intro l
  induction l with
  | nil =>
      intro prev out _ n sb sa _ h2
      simp at h2
  | cons s rest ih =>
      intro prev out h n sb sa h1 h2
      rw [addLexGo] at h
      split at h
      case isTrue hagree =>
        rcases hrec : addLexGo K s rest with _ | l' <;> rw [hrec] at h
        · cases h
        · rw [Option.map_some'] at h
          cases h
          cases n with
          | zero =>
              simp at h1 h2
              subst h1; subst h2
              exact ⟨rfl, hagree⟩
          | succ n =>
              have h1' : (s :: rest).get? n = some sb := h1
              have h2' : rest.get? n = some sa := h2
              exact ih s l' hrec n sb sa h1' h2'
      case isFalse => cases h

theorem addLexHA_get? (K K' : Kernel) (hK : addLexHA K = some K')
    (i : Nat) (sb sa : Stmt)
    (hb : K.instructions.get? i = some sb)
    (ha : K.instructions.get? (i + 1) = some sa) :
    K'.instructions.get? (i + 1) = some (withLexEdge K sb sa) ∧
    orderOf K sb sa = orderBeforeOf K sb sa := by
  rcases hKi : K.instructions with _ | ⟨s0, rest⟩
  · rw [hKi] at hb; simp at hb
  · rw [hKi] at hb ha
    have hstep : addLexHA K =
        (addLexGo K s0 rest).map (fun l => { K with instructions := s0 :: l }) := by
      rw [addLexHA, hKi]
    rw [hstep] at hK
    rcases hgo : addLexGo K s0 rest with _ | l <;> rw [hgo] at hK
    · cases hK
    · rw [Option.map_some'] at hK
      cases hK
      have h2 : rest.get? i = some sa := ha
      exact addLexGo_get? K rest s0 l hgo i sb sa hb h2

/-- The first statement in program order is left unchanged by
`add_lexicographic_happens_after` (when the pass succeeds at all). -/
theorem addLexHA_get?_zero (K K' : Kernel) (hK : addLexHA K = some K')
    (s0 : Stmt) (h0 : K.instructions.get? 0 = some s0) :
    K'.instructions.get? 0 = some s0 := by
  rcases hKi : K.instructions with _ | ⟨s, rest⟩
  · rw [hKi] at h0; simp at h0
  · rw [hKi] at h0
    have hstep : addLexHA K =
        (addLexGo K s rest).map (fun l => { K with instructions := s :: l }) := by
      rw [addLexHA, hKi]
    rw [hstep] at hK
    rcases hgo : addLexGo K s rest with _ | l <;> rw [hgo] at hK
    · cases hK
    · rw [Option.map_some'] at hK
      cases hK
      simpa using h0

/-- On the kernel whose adjacent statements order their shared inames
differently, the pass fails (the source raises `AssertionError`) and
produces no kernel. -/
theorem addLexHA_assert_violation : addLexHA Kdis = none := rfl

/- ## No identity pair in either stage's relations -/

theorem lexEdgeRel_no_self (K : Kernel) (sb sa : Stmt) (x : Pt)
    (hx : x.length = (K.inamesDomain sb.within_inames).names.length)
    (hord : ∀ n ∈ orderOf K sb sa, n ∈ (K.inamesDomain sb.within_inames).names)
    (hfresh : ∀ n ∈ orderOf K sb sa,
      prime n ∉ (K.inamesDomain sb.within_inames).names)
    (hpos : ∀ n ∈ orderOf K sb sa,
      nameIdx (K.inamesDomain sb.within_inames).names n =
        nameIdx (K.inamesDomain sa.within_inames).names n) :
    ¬ (lexEdgeRel K sb sa).mem x x := by
  intro h
  rw [lexEdgeRel_mem K sb sa x x hx hord hfresh] at h
  obtain ⟨_, k, hk, _, hlt⟩ := h
  have heq := hpos _ (getD_mem hk)
  rw [valAt, valAt, heq] at hlt
  exact lt_irrefl _ hlt

theorem depsRaw_no_self (bm am : IslMap) (x : Pt) : ¬ (depsRaw bm am).mem x x := by
  intro h
  rw [depsRaw] at h
  split at h <;> exact h.1.2 rfl

theorem depsRaw_mem_imp (bm am : IslMap) (x y : Pt)
    (h : (depsRaw bm am).mem x y) :
    (∃ c, bm.mem x c ∧ am.mem y c) ∧ x ≠ y := by
  rw [depsRaw] at h
  split at h <;> exact ⟨h.1.1, h.1.2⟩

theorem depsOf_eq_some {st : AMFState} {bid v aid : String} {d : IslMap}
    (h : depsOf st bid v aid = some d) :
    ∃ bm am, st bid v = some bm ∧ st aid v = some am ∧ d = depsRaw bm am := by
  rcases hb : st bid v with _ | bm <;> rcases ha : st aid v with _ | am <;>
    rw [depsOf, hb, ha] at h
  · cases h
  · cases h
  · cases h
  · cases h
    exact ⟨bm, am, rfl, rfl, rfl⟩

theorem depsOf_no_self {st : AMFState} {bid v aid : String} {d : IslMap}
    (h : depsOf st bid v aid = some d) : ∀ x, ¬ d.mem x x := by
  intro x hmem
  obtain ⟨bm, am, _, _, hd⟩ := depsOf_eq_some h
  rw [hd] at hmem
  exact depsRaw_no_self bm am x hmem

/- ## Generic facts about the edge-recording loop -/

theorem buildsHA_mem (st : AMFState) (bid : String) :
    ∀ (l : List (String × String)) (acc m : HAMap),
      BuildsHA st bid l acc m → ∀ T e, m T = some e →
        (∃ v d, (v, T) ∈ l ∧ depsOf st bid v T = some d ∧ ¬ d.IsEmpty ∧
          e = ⟨some v, d⟩) ∨ acc T = some e := by
  intro l
  induction l with
  | nil =>
      intro acc m h T e hm
      rw [h] at hm
      exact Or.inr hm
  | cons p rest ih =>
      obtain ⟨v, a⟩ := p
      intro acc m h T e hm
      obtain ⟨d, hd, hcase⟩ := h
      rcases hcase with ⟨_, hrest⟩ | ⟨hne, hrest⟩
      · rcases ih _ _ hrest T e hm with ⟨v', d', h1, h2, h3, h4⟩ | hacc
        · exact Or.inl ⟨v', d', List.mem_cons_of_mem _ h1, h2, h3, h4⟩
        · exact Or.inr hacc
      · rcases ih _ _ hrest T e hm with ⟨v', d', h1, h2, h3, h4⟩ | hacc
        · exact Or.inl ⟨v', d', List.mem_cons_of_mem _ h1, h2, h3, h4⟩
        · by_cases hT : T = a
          · subst hT
            rw [updateHA, if_pos rfl] at hacc
            cases hacc
            exact Or.inl ⟨v, d, List.mem_cons_self _ _, hd, hne, rfl⟩
          · rw [updateHA, if_neg hT] at hacc
            exact Or.inr hacc

theorem buildsHA_unchanged (st : AMFState) (bid : String) :
    ∀ (l : List (String × String)) (acc m : HAMap),
      BuildsHA st bid l acc m →
      ∀ T, (∀ v d, (v, T) ∈ l → depsOf st bid v T = some d → d.IsEmpty) →
        m T = acc T := by
  intro l
  induction l with
  | nil =>
      intro acc m h T _
      rw [h]
  | cons p rest ih =>
      obtain ⟨v, a⟩ := p
      intro acc m h T hall
      obtain ⟨d, hd, hcase⟩ := h
      rcases hcase with ⟨_, hrest⟩ | ⟨hne, hrest⟩
      · exact ih _ _ hrest T
          (fun v' d' h1 h2 => hall v' d' (List.mem_cons_of_mem _ h1) h2)
      · have hTa : ¬ T = a := by
          intro hTa
          subst hTa
          exact hne (hall v d (List.mem_cons_self _ _) hd)
        have := ih _ _ hrest T
          (fun v' d' h1 h2 => hall v' d' (List.mem_cons_of_mem _ h1) h2)
        rwa [updateHA, if_neg hTa] at this

theorem buildsHA_last (st : AMFState) (bid : String) :
    ∀ (l1 : List (String × String)) (v T : String)
      (l2 : List (String × String)) (acc m : HAMap) (d : IslMap),
      BuildsHA st bid (l1 ++ (v, T) :: l2) acc m →
      depsOf st bid v T = some d → ¬ d.IsEmpty →
      (∀ v' d', (v', T) ∈ l2 → depsOf st bid v' T = some d' → d'.IsEmpty) →
      m T = some ⟨some v, d⟩ := by
  intro l1
  induction l1 with
  | nil =>
      intro v T l2 acc m d h hd hne hall
      obtain ⟨d0, hd0, hcase⟩ := h
      rw [hd] at hd0
      cases hd0
      rcases hcase with ⟨hemp, _⟩ | ⟨_, hrest⟩
      · exact absurd hemp hne
      · have := buildsHA_unchanged st bid l2 _ m hrest T hall
        rwa [updateHA, if_pos rfl] at this
  | cons p l1 ih =>
      obtain ⟨v0, a0⟩ := p
      intro v T l2 acc m d h hd hne hall
      obtain ⟨d0, hd0, hcase⟩ := h
      rcases hcase with ⟨_, hrest⟩ | ⟨_, hrest⟩
      · exact ih v T l2 _ m d hrest hd hne hall
      · exact ih v T l2 _ m d hrest hd hne hall

theorem buildsHA_det (st : AMFState) (bid : String) :
    ∀ (l : List (String × String)) (acc m m' : HAMap),
      BuildsHA st bid l acc m → BuildsHA st bid l acc m' → m = m' := by
  intro l
  induction l with
  | nil =>
      intro acc m m' h h'
      rw [h, h']
  | cons p rest ih =>
      obtain ⟨v, a⟩ := p
      intro acc m m' h h'
      obtain ⟨d, hd, hcase⟩ := h
      obtain ⟨d', hd', hcase'⟩ := h'
      rw [hd] at hd'
      cases hd'
      rcases hcase with ⟨hemp, hrest⟩ | ⟨hne, hrest⟩ <;>
        rcases hcase' with ⟨hemp', hrest'⟩ | ⟨hne', hrest'⟩
      · exact ih _ _ _ hrest hrest'
      · exact absurd hemp hne'
      · exact absurd hemp' hne
      · exact ih _ _ _ hrest hrest'

/- ## Membership in the dependence relation -/

theorem depsRaw_mem_iff (bm am : IslMap) (x y : Pt) :
    (depsRaw bm am).mem x y ↔
      (getUnorderedDeps bm am).mem x y ∧
      (IslMap.lexLtMap (getUnorderedDeps bm am) (getUnorderedDeps bm am)).mem x y := by
  rw [depsRaw]
  split <;> exact Iff.rfl

theorem getUnorderedDeps_mem (bm am : IslMap) (x y : Pt) :
    (getUnorderedDeps bm am).mem x y ↔
      (∃ c, bm.mem x c ∧ am.mem y c) ∧ ¬ x = y :=
  Iff.rfl

theorem depsRaw_empty_of_fun {bm am : IslMap} (g : Pt → Pt)
    (hb : ∀ x c, bm.mem x c → x = g c) (ha : ∀ y c, am.mem y c → y = g c) :
    (depsRaw bm am).IsEmpty := by
  intro x y hmem
  obtain ⟨⟨c, hbc, hac⟩, hne⟩ := depsRaw_mem_imp bm am x y hmem
  exact hne ((hb x c hbc).trans (ha y c hac).symm)

/- ## Concrete access relations -/

theorem accessRel_mem_single (k : Int) (e : Expr) (f : Int → Int)
    (hf : ∀ a : Int, evalE (valAt ["i"] [a]) e = f a) (x c : Pt) :
    (accessRel (domN k) [e]).mem x c ↔
      ∃ a : Int, x = [a] ∧ c = [f a] ∧ 0 ≤ a ∧ a < k := by
  constructor
  · rintro ⟨⟨hlen, h0, hk⟩, hc⟩
    obtain ⟨a, rfl⟩ := List.length_eq_one.mp hlen
    refine ⟨a, rfl, ?_, ?_, ?_⟩
    · simpa [domN, hf a] using hc
    · simpa using h0
    · simpa using hk
  · rintro ⟨a, rfl, rfl, h0, hk⟩
    refine ⟨⟨rfl, ?_, ?_⟩, ?_⟩
    · simpa using h0
    · simpa using hk
    · simp [domN, hf a]

theorem relVar3_mem (x c : Pt) :
    relVar3.mem x c ↔ ∃ a : Int, x = [a] ∧ c = [a] ∧ 0 ≤ a ∧ a < 3 :=
  accessRel_mem_single 3 (.var "i") (fun a => a)
    (fun a => by simp [evalE, valAt, nameIdx]) x c

theorem relShift3_mem (x c : Pt) :
    relShift3.mem x c ↔ ∃ a : Int, x = [a] ∧ c = [a + (-1)] ∧ 0 ≤ a ∧ a < 3 :=
  accessRel_mem_single 3 (.add (.var "i") (.intConst (-1))) (fun a => a + (-1))
    (fun a => by simp [evalE, valAt, nameIdx]) x c

theorem relPlus3_mem (x c : Pt) :
    (accessRel (domN 3) [.add (.var "i") (.intConst 1)]).mem x c ↔
      ∃ a : Int, x = [a] ∧ c = [a + 1] ∧ 0 ≤ a ∧ a < 3 :=
  accessRel_mem_single 3 (.add (.var "i") (.intConst 1)) (fun a => a + 1)
    (fun a => by simp [evalE, valAt, nameIdx]) x c

theorem mSelfA_mem (x c : Pt) :
    mSelfA.mem x c ↔
      (∃ a : Int, x = [a] ∧ c = [a] ∧ 0 ≤ a ∧ a < 3) ∨
      (∃ a : Int, x = [a] ∧ c = [a + 1] ∧ 0 ≤ a ∧ a < 3) := by
  show relVar3.mem x c ∨ (accessRel (domN 3) [.add (.var "i") (.intConst 1)]).mem x c ↔ _
  rw [relVar3_mem, relPlus3_mem]

/- ## The concrete dependence relations -/

theorem dSame3_empty : dSame3.IsEmpty := by
  refine depsRaw_empty_of_fun (fun c => c) ?_ ?_ <;>
  · intro x c h
    obtain ⟨a, rfl, rfl, -, -⟩ := (relVar3_mem x c).mp h
    rfl

theorem unorderedShift3_mem01 : (getUnorderedDeps relVar3 relShift3).mem [0] [1] := by
  rw [getUnorderedDeps_mem]
  refine ⟨⟨[0], ?_, ?_⟩, by decide⟩
  · exact (relVar3_mem _ _).mpr ⟨0, rfl, rfl, by decide, by decide⟩
  · exact (relShift3_mem _ _).mpr ⟨1, rfl, by decide, by decide, by decide⟩

theorem unorderedShift3_mem12 : (getUnorderedDeps relVar3 relShift3).mem [1] [2] := by
  rw [getUnorderedDeps_mem]
  refine ⟨⟨[1], ?_, ?_⟩, by decide⟩
  · exact (relVar3_mem _ _).mpr ⟨1, rfl, rfl, by decide, by decide⟩
  · exact (relShift3_mem _ _).mpr ⟨2, rfl, by decide, by decide, by decide⟩

theorem lexLtVals_12 : lexLtVals [1] [2] := by
  refine ⟨0, by decide, by decide, ?_, by decide⟩
  intro j hj
  exact absurd hj (Nat.not_lt_zero j)

theorem dShift3_mem01 : dShift3.mem [0] [1] := by
  show (depsRaw relVar3 relShift3).mem [0] [1]
  rw [depsRaw_mem_iff]
  exact ⟨unorderedShift3_mem01,
    ⟨[1], [2], unorderedShift3_mem01, unorderedShift3_mem12, lexLtVals_12⟩⟩

theorem dShift3_ne : ¬ dShift3.IsEmpty := fun h => h [0] [1] dShift3_mem01

theorem unorderedSelf_mem01 : (getUnorderedDeps mSelfA mSelfA).mem [0] [1] := by
  rw [getUnorderedDeps_mem]
  refine ⟨⟨[1], ?_, ?_⟩, by decide⟩
  · exact (mSelfA_mem _ _).mpr (Or.inr ⟨0, rfl, by decide, by decide, by decide⟩)
  · exact (mSelfA_mem _ _).mpr (Or.inl ⟨1, rfl, rfl, by decide, by decide⟩)

theorem unorderedSelf_mem12 : (getUnorderedDeps mSelfA mSelfA).mem [1] [2] := by
  rw [getUnorderedDeps_mem]
  refine ⟨⟨[2], ?_, ?_⟩, by decide⟩
  · exact (mSelfA_mem _ _).mpr (Or.inr ⟨1, rfl, by decide, by decide, by decide⟩)
  · exact (mSelfA_mem _ _).mpr (Or.inl ⟨2, rfl, rfl, by decide, by decide⟩)

theorem dSelf_mem01 : dSelf.mem [0] [1] := by
  show (depsRaw mSelfA mSelfA).mem [0] [1]
  rw [depsRaw_mem_iff]
  exact ⟨unorderedSelf_mem01,
    ⟨[1], [2], unorderedSelf_mem01, unorderedSelf_mem12, lexLtVals_12⟩⟩

theorem dSelf_ne : ¬ dSelf.IsEmpty := fun h => h [0] [1] dSelf_mem01

/- ## Concrete runs of the edge-recording loop -/

theorem buildsKself :
    BuildsHA (runAMFState Kself) "s" (updEntries Kself sSelf) haEmpty mSelf := by
  show BuildsHA (runAMFState Kself) "s" [("a", "s")] haEmpty mSelf
  exact ⟨dSelf, rfl, Or.inr ⟨dSelf_ne, rfl⟩⟩

theorem buildsK6 :
    BuildsHA (runAMFState K6) "s1" (updEntries K6 s6a) haEmpty mK6 := by
  show BuildsHA (runAMFState K6) "s1"
    [("b", "s1"), ("b", "s2"), ("a", "s1"), ("a", "s2")] haEmpty mK6
  exact ⟨dSame3, rfl, Or.inl ⟨dSame3_empty,
    ⟨dShift3, rfl, Or.inr ⟨dShift3_ne,
      ⟨dSame3, rfl, Or.inl ⟨dSame3_empty,
        ⟨dShift3, rfl, Or.inr ⟨dShift3_ne, rfl⟩⟩⟩⟩⟩⟩⟩⟩

theorem buildsK8 :
    BuildsHA (runAMFState K8) "u1" (updEntries K8 s8a) haEmpty m8 := by
  show BuildsHA (runAMFState K8) "u1"
    [("b", "u1"), ("b", "u2"), ("c", "u1")] haEmpty m8
  exact ⟨dSame3, rfl, Or.inl ⟨dSame3_empty,
    ⟨dShift3, rfl, Or.inr ⟨dShift3_ne,
      ⟨dSame3, rfl, Or.inl ⟨dSame3_empty, rfl⟩⟩⟩⟩⟩⟩

theorem computeKself : ComputeDataDeps Kself KselfOut :=
  ⟨runAMFState Kself, rfl,
   List.Forall₂.cons ⟨mSelf, buildsKself, rfl⟩ List.Forall₂.nil, rfl⟩

theorem computeKselfMapped :
    ComputeDataDeps (mapHA Kself (fun _ => mSelf)) KselfOut :=
  ⟨runAMFState Kself, rfl,
   List.Forall₂.cons ⟨mSelf, buildsKself, rfl⟩ List.Forall₂.nil, rfl⟩

/-- The seeded relation of `Kasym` relates predecessor iteration `[0]` to
successor iteration `[1, 0]`: the shared iname `i` increases. -/
theorem lexAsymMem01 : (lexEdgeRel Kasym sAsymA sAsymB).mem [0] [1, 0] := by
  refine ⟨⟨⟨rfl, by decide, by decide⟩,
    ⟨rfl, by decide, by decide, by decide, by decide⟩⟩, ?_⟩
  exact Or.inr (show
    valAt (["i"] ++ ["i", "j"].map prime) ([0] ++ [1, 0]) "i" <
      valAt (["i"] ++ ["i", "j"].map prime) ([0] ++ [1, 0]) (prime "i")
    from by decide)

/- ## Characterising the access-map walk -/

theorem recordAccess_mem (st : AMFState) (iid v : String) (m : IslMap)
    (i w : String) (x c : Pt) :
    optMem ((recordAccess st iid v m) i w) x c ↔
      optMem (st i w) x c ∨ (i = iid ∧ w = v ∧ m.mem x c) := by
  by_cases hc : i = iid ∧ w = v
  · obtain ⟨h1, h2⟩ := hc
    subst h1; subst h2
    rcases hs : st i w with _ | old <;>
      simp [recordAccess, optMem, hs, IslMap.union]
  · simp [recordAccess, if_neg hc, optMem]
    intro h1 h2
    exact absurd ⟨h1, h2⟩ hc

mutual
theorem walk_char (dom : IslSet) (iid : String) :
    ∀ (e : Expr) (st st' : AMFState), walk dom iid st e = .ok st' →
      ∀ i v x c, optMem (st' i v) x c ↔
        optMem (st i v) x c ∨
        (i = iid ∧ ∃ idxs, idxs ∈ subsOf v e ∧ (accessRel dom idxs).mem x c)
  | .var _, st, st', h => by
      cases h
      intro i v x c
      simp [subsOf]
  | .intConst _, st, st', h => by
      cases h
      intro i v x c
      simp [subsOf]
  | .add a b, st, st', h => by
      rw [walk] at h
      rcases hE : walk dom iid st a with msg | st1 <;> rw [hE] at h
      · cases h
      · simp only [Bind.bind, Except.bind] at h
        intro i v x c
        rw [walk_char dom iid b st1 st' h i v x c,
          walk_char dom iid a st st1 hE i v x c]
        simp only [subsOf, List.mem_append]
        constructor
        · rintro ((h | ⟨hi, idxs, hm, hr⟩) | ⟨hi, idxs, hm, hr⟩)
          · exact Or.inl h
          · exact Or.inr ⟨hi, idxs, Or.inl hm, hr⟩
          · exact Or.inr ⟨hi, idxs, Or.inr hm, hr⟩
        · rintro (h | ⟨hi, idxs, hm | hm, hr⟩)
          · exact Or.inl (Or.inl h)
          · exact Or.inl (Or.inr ⟨hi, idxs, hm, hr⟩)
          · exact Or.inr ⟨hi, idxs, hm, hr⟩
  | .mul a b, st, st', h => by
      rw [walk] at h
      rcases hE : walk dom iid st a with msg | st1 <;> rw [hE] at h
      · cases h
      · simp only [Bind.bind, Except.bind] at h
        intro i v x c
        rw [walk_char dom iid b st1 st' h i v x c,
          walk_char dom iid a st st1 hE i v x c]
        simp only [subsOf, List.mem_append]
        constructor
        · rintro ((h | ⟨hi, idxs, hm, hr⟩) | ⟨hi, idxs, hm, hr⟩)
          · exact Or.inl h
          · exact Or.inr ⟨hi, idxs, Or.inl hm, hr⟩
          · exact Or.inr ⟨hi, idxs, Or.inr hm, hr⟩
        · rintro (h | ⟨hi, idxs, hm | hm, hr⟩)
          · exact Or.inl (Or.inl h)
          · exact Or.inl (Or.inr ⟨hi, idxs, hm, hr⟩)
          · exact Or.inr ⟨hi, idxs, hm, hr⟩
  | .subscript agg idxs, st, st', h => by
      rw [walk] at h
      rcases hE : walkList dom iid st idxs with msg | st1 <;> rw [hE] at h
      · cases h
      · simp only [Bind.bind, Except.bind, getAccessMap] at h
        rcases haff : idxs.all isAffine with _ | _ <;> rw [haff] at h
        · cases h
        · simp only [Except.bind] at h
          cases h
          intro i v x c
          rw [recordAccess_mem, walkList_char dom iid idxs st st1 hE i v x c]
          by_cases hag : agg = v
          · have hred : (if agg = v then [idxs] else ([] : List (List Expr))) = [idxs] :=
              if_pos hag
            simp only [subsOf, hred, List.mem_append, List.mem_singleton,
              or_and_right, exists_or, exists_eq_left]
            constructor
            · rintro ((h | ⟨hi, hsub⟩) | ⟨hi, _, hr⟩)
              · exact Or.inl h
              · exact Or.inr ⟨hi, Or.inl hsub⟩
              · exact Or.inr ⟨hi, Or.inr hr⟩
            · rintro (h | ⟨hi, hsub | hr⟩)
              · exact Or.inl (Or.inl h)
              · exact Or.inl (Or.inr ⟨hi, hsub⟩)
              · exact Or.inr ⟨hi, hag.symm, hr⟩
          · have hag' : ¬ v = agg := fun e => hag e.symm
            have hred : (if agg = v then [idxs] else ([] : List (List Expr))) = [] :=
              if_neg hag
            simp only [subsOf, hred, List.append_nil]
            constructor
            · rintro ((h | hsub) | ⟨_, hv, _⟩)
              · exact Or.inl h
              · exact Or.inr hsub
              · exact absurd hv hag'
            · rintro (h | hsub)
              · exact Or.inl (Or.inl h)
              · exact Or.inl (Or.inr hsub)
  | .linearSubscript _ idx, st, st', h => by
      rw [walk] at h
      intro i v x c
      rw [walk_char dom iid idx st st' h i v x c]
      simp [subsOf]
  | .reduction body, st, st', h => by
      rw [walk] at h
      intro i v x c
      rw [walk_char dom iid body st st' h i v x c]
      simp [subsOf]
  | .typeCast child, st, st', h => by
      rw [walk] at h
      intro i v x c
      rw [walk_char dom iid child st st' h i v x c]
      simp [subsOf]

theorem walkList_char (dom : IslSet) (iid : String) :
    ∀ (es : List Expr) (st st' : AMFState), walkList dom iid st es = .ok st' →
      ∀ i v x c, optMem (st' i v) x c ↔
        optMem (st i v) x c ∨
        (i = iid ∧ ∃ idxs, idxs ∈ subsOfList v es ∧ (accessRel dom idxs).mem x c)
  | [], st, st', h => by
      cases h
      intro i v x c
      simp [subsOfList]
  | e :: rest, st, st', h => by
      rw [walkList] at h
      rcases hE : walk dom iid st e with msg | st1 <;> rw [hE] at h
      · cases h
      · simp only [Bind.bind, Except.bind] at h
        intro i v x c
        rw [walkList_char dom iid rest st1 st' h i v x c,
          walk_char dom iid e st st1 hE i v x c]
        simp only [subsOfList, List.mem_append]
        constructor
        · rintro ((h | ⟨hi, js, hm, hr⟩) | ⟨hi, js, hm, hr⟩)
          · exact Or.inl h
          · exact Or.inr ⟨hi, js, Or.inl hm, hr⟩
          · exact Or.inr ⟨hi, js, Or.inr hm, hr⟩
        · rintro (h | ⟨hi, js, hm | hm, hr⟩)
          · exact Or.inl (Or.inl h)
          · exact Or.inl (Or.inr ⟨hi, js, hm, hr⟩)
          · exact Or.inr ⟨hi, js, hm, hr⟩
end

/-- What one `AccessMapFinder` pass over one instruction stores: the old
entry's pairs plus, at the instruction's own id, the pairs of the access
relations of all textual subscripts of `v` in the assignment target or the
right-hand side. -/
theorem runInsn_char (K : Kernel) (st : AMFState) (s : Stmt) (st' : AMFState)
    (h : runInsn K st s = .ok st') :
    ∀ i v x c, optMem (st' i v) x c ↔
      optMem (st i v) x c ∨
      (i = s.id ∧ ∃ idxs,
        idxs ∈ subsOf v s.assignee ++ subsOf v s.expression ∧
        (accessRel (K.inamesDomain s.within_inames) idxs).mem x c) := by
  rw [runInsn] at h
  rcases hE : walk (K.inamesDomain s.within_inames) s.id st s.assignee with msg | st1 <;>
    rw [hE] at h
  · cases h
  · simp only [Bind.bind, Except.bind] at h
    intro i v x c
    rw [walk_char _ _ s.expression st1 st' h i v x c,
      walk_char _ _ s.assignee st st1 hE i v x c]
    simp only [List.mem_append]
    constructor
    · rintro ((h | ⟨hi, js, hm, hr⟩) | ⟨hi, js, hm, hr⟩)
      · exact Or.inl h
      · exact Or.inr ⟨hi, js, Or.inl hm, hr⟩
      · exact Or.inr ⟨hi, js, Or.inr hm, hr⟩
    · rintro (h | ⟨hi, js, hm | hm, hr⟩)
      · exact Or.inl (Or.inl h)
      · exact Or.inl (Or.inr ⟨hi, js, hm, hr⟩)
      · exact Or.inr ⟨hi, js, hm, hr⟩

/- ## compute_data_dependencies ignores the incoming happens_after maps -/

theorem runAMF_mapHA (K : Kernel) (f : Stmt → HAMap) :
    runAMF (mapHA K f) = runAMF K := by
  show (K.instructions.map _).foldlM (runInsn (mapHA K f)) emptySt =
    K.instructions.foldlM (runInsn K) emptySt
  rw [List.foldlM_map]
  rfl

theorem readerIds_mapHA (K : Kernel) (f : Stmt → HAMap) (v : String) :
    readerIds (mapHA K f) v = readerIds K v := by
  show ((K.instructions.map _).filter _).map Stmt.id = _
  rw [List.filter_map, List.map_map]
  rfl

theorem writerIds_mapHA (K : Kernel) (f : Stmt → HAMap) (v : String) :
    writerIds (mapHA K f) v = writerIds K v := by
  show ((K.instructions.map _).filter _).map Stmt.id = _
  rw [List.filter_map, List.map_map]
  rfl

theorem accessedBy_mapHA (K : Kernel) (f : Stmt → HAMap) (v : String) :
    accessedBy (mapHA K f) v = accessedBy K v := by
  rw [accessedBy, accessedBy, readerIds_mapHA, writerIds_mapHA]

theorem updEntries_mapHA (K : Kernel) (f : Stmt → HAMap) (b : Stmt) (h : HAMap) :
    updEntries (mapHA K f) { b with happens_after := h } = updEntries K b := by
  have hA : accessedBy (mapHA K f) = accessedBy K :=
    funext (accessedBy_mapHA K f)
  rw [updEntries, updEntries, hA]
  rfl

theorem forall₂_ha_eq (K : Kernel) (f : Stmt → HAMap) (st : AMFState) :
    ∀ (l l1 l2 : List Stmt),
      List.Forall₂ (StmtResult (mapHA K f) st)
        (l.map (fun s => { s with happens_after := f s })) l1 →
      List.Forall₂ (StmtResult K st) l l2 →
      List.Forall₂ (fun a b => a.happens_after = b.happens_after) l1 l2 := by
  intro l
  induction l with
  | nil =>
      intro l1 l2 h1 h2
      cases h1; cases h2
      exact .nil
  | cons b rest ih =>
      intro l1 l2 h1 h2
      rw [List.map_cons] at h1
      cases h1 with
      | cons hr1 ht1 =>
          cases h2 with
          | cons hr2 ht2 =>
              obtain ⟨m1, hb1, rfl⟩ := hr1
              obtain ⟨m2, hb2, rfl⟩ := hr2
              refine .cons ?_ (ih _ _ ht1 ht2)
              rw [updEntries_mapHA K f b (f b)] at hb1
              exact buildsHA_det st b.id _ haEmpty m1 m2 hb1 hb2

/- ## Claim theorems -/

/-- C1 (corrected), counterexample: on the kernel `Kasym` the seeded edge
of the second statement exists and targets the first, but its instances
relation is NOT the claim's relation: the claim primes the predecessor
side, while the source primes the successor (output) side — the edge's
primed output dimensions are the successor's `[i', j']`, not the
predecessor's `[i']`, and the pair `([0], [1,0])` (predecessor iteration 0
before successor iteration (1,0)) lies in the produced relation but not in
the claim's. -/
theorem C1_counterexample :
    addLexHA Kasym = some KasymOut ∧
    KasymOut.instructions.get? 1 = some (withLexEdge Kasym sAsymA sAsymB) ∧
    (lexEdgeRel Kasym sAsymA sAsymB).mem [0] [1, 0] ∧
    ¬ (claimedC1Rel Kasym sAsymA sAsymB).mem [0] [1, 0] ∧
    (lexEdgeRel Kasym sAsymA sAsymB).outNames =
      (Kasym.inamesDomain sAsymB.within_inames).names.map prime ∧
    ¬ (lexEdgeRel Kasym sAsymA sAsymB).outNames =
      (Kasym.inamesDomain sAsymA.within_inames).names.map prime := by
  refine ⟨rfl, rfl, lexAsymMem01, ?_, rfl, by decide⟩
  intro h
  exact absurd h.1.1 (by decide)

/-- C1 (amended): when the pass succeeds — the source asserts that every
adjacent pair's shared inames occur in the same order in both statements'
domains, and fails with `AssertionError` otherwise — every statement
except the first gets exactly one `HappensAfter` edge, to its immediate
predecessor, with no associated variable; its instances relation is the
cross product of the two iteration domains with the SUCCESSOR side renamed
to primed names (mapping predecessor iterations to successor iterations),
intersected with the lexicographic condition: at some position `k` of the
shared order all earlier shared indices agree and the predecessor's index
at `k` is strictly smaller than the successor's.  The order agreement for
the pair is part of the conclusion. -/
theorem C1_lex_seed_amended (K K' : Kernel) (i : Nat) (sb sa : Stmt)
    (hK : addLexHA K = some K')
    (hb : K.instructions.get? i = some sb)
    (ha : K.instructions.get? (i + 1) = some sa)
    (hord : ∀ n ∈ orderOf K sb sa, n ∈ (K.inamesDomain sb.within_inames).names)
    (hfresh : ∀ n ∈ orderOf K sb sa,
      prime n ∉ (K.inamesDomain sb.within_inames).names) :
    K'.instructions.get? (i + 1) = some (withLexEdge K sb sa) ∧
    orderOf K sb sa = orderBeforeOf K sb sa ∧
    (withLexEdge K sb sa).happens_after =
      (fun t => if t = sb.id then some ⟨none, lexEdgeRel K sb sa⟩ else none) ∧
    (lexEdgeRel K sb sa).inNames = (K.inamesDomain sb.within_inames).names ∧
    (lexEdgeRel K sb sa).outNames =
      (K.inamesDomain sa.within_inames).names.map prime ∧
    (∀ x y : Pt, x.length = (K.inamesDomain sb.within_inames).names.length →
      ((lexEdgeRel K sb sa).mem x y ↔
        ((K.inamesDomain sb.within_inames).mem x ∧
         (K.inamesDomain sa.within_inames).mem y) ∧
        ∃ k, k < (orderOf K sb sa).length ∧
          (∀ o ∈ (orderOf K sb sa).take k,
            valAt (K.inamesDomain sb.within_inames).names x o =
              valAt (K.inamesDomain sa.within_inames).names y o) ∧
          valAt (K.inamesDomain sb.within_inames).names x
              ((orderOf K sb sa).getD k "") <
            valAt (K.inamesDomain sa.within_inames).names y
              ((orderOf K sb sa).getD k ""))) :=
  ⟨(addLexHA_get? K K' hK i sb sa hb ha).1,
   (addLexHA_get? K K' hK i sb sa hb ha).2, rfl, rfl, rfl,
   fun x y hx => lexEdgeRel_mem K sb sa x y hx hord hfresh⟩

/-- Witness for C1 on the concrete kernel `K2`. -/
theorem C1_lex_seed_amended_witness :
    (addLexHA K2 = some K2Out ∧
     K2.instructions.get? 0 = some sK2a ∧ K2.instructions.get? 1 = some sK2b ∧
     (∀ n ∈ orderOf K2 sK2a sK2b, n ∈ (K2.inamesDomain sK2a.within_inames).names) ∧
     (∀ n ∈ orderOf K2 sK2a sK2b,
       prime n ∉ (K2.inamesDomain sK2a.within_inames).names)) ∧
    (K2Out.instructions.get? 1 = some (withLexEdge K2 sK2a sK2b) ∧
     orderOf K2 sK2a sK2b = orderBeforeOf K2 sK2a sK2b ∧
     (withLexEdge K2 sK2a sK2b).happens_after =
       (fun t => if t = sK2a.id then some ⟨none, lexEdgeRel K2 sK2a sK2b⟩ else none) ∧
     (lexEdgeRel K2 sK2a sK2b).inNames = (K2.inamesDomain sK2a.within_inames).names ∧
     (lexEdgeRel K2 sK2a sK2b).outNames =
       (K2.inamesDomain sK2b.within_inames).names.map prime ∧
     (∀ x y : Pt, x.length = (K2.inamesDomain sK2a.within_inames).names.length →
       ((lexEdgeRel K2 sK2a sK2b).mem x y ↔
         ((K2.inamesDomain sK2a.within_inames).mem x ∧
          (K2.inamesDomain sK2b.within_inames).mem y) ∧
         ∃ k, k < (orderOf K2 sK2a sK2b).length ∧
           (∀ o ∈ (orderOf K2 sK2a sK2b).take k,
             valAt (K2.inamesDomain sK2a.within_inames).names x o =
               valAt (K2.inamesDomain sK2b.within_inames).names y o) ∧
           valAt (K2.inamesDomain sK2a.within_inames).names x
               ((orderOf K2 sK2a sK2b).getD k "") <
             valAt (K2.inamesDomain sK2b.within_inames).names y
               ((orderOf K2 sK2a sK2b).getD k "")))) :=
  ⟨⟨rfl, rfl, rfl, by decide, by decide⟩,
   C1_lex_seed_amended K2 K2Out 0 sK2a sK2b rfl rfl rfl (by decide) (by decide)⟩

/-- C2: no instances relation of either stage relates a statement
instance to itself; for the seeded edges this holds whenever the shared
inames occupy the same positions in both statements' domains (in
particular whenever both statements have the same domain). -/
theorem C2_no_self_ordering :
    (∀ (st : AMFState) (bid v aid : String) (d : IslMap),
       depsOf st bid v aid = some d → ∀ x : Pt, ¬ d.mem x x) ∧
    (∀ (K : Kernel) (sb sa : Stmt) (x : Pt),
       x.length = (K.inamesDomain sb.within_inames).names.length →
       (∀ n ∈ orderOf K sb sa, n ∈ (K.inamesDomain sb.within_inames).names) →
       (∀ n ∈ orderOf K sb sa,
         prime n ∉ (K.inamesDomain sb.within_inames).names) →
       (∀ n ∈ orderOf K sb sa,
         nameIdx (K.inamesDomain sb.within_inames).names n =
           nameIdx (K.inamesDomain sa.within_inames).names n) →
       ¬ (lexEdgeRel K sb sa).mem x x) :=
  ⟨fun _ _ _ _ _ h => depsOf_no_self h,
   fun K sb sa x hx h1 h2 h3 => lexEdgeRel_no_self K sb sa x hx h1 h2 h3⟩

/-- Witness for C2 on the concrete kernels `Kself` and `K2`. -/
theorem C2_no_self_ordering_witness :
    (depsOf (runAMFState Kself) "s" "a" "s" = some dSelf ∧
     ¬ dSelf.mem [0] [0]) ∧
    ((([0] : Pt)).length = (K2.inamesDomain sK2a.within_inames).names.length ∧
     ¬ (lexEdgeRel K2 sK2a sK2b).mem [0] [0]) :=
  ⟨⟨rfl, C2_no_self_ordering.1 (runAMFState Kself) "s" "a" "s" dSelf rfl [0]⟩,
   ⟨rfl, C2_no_self_ordering.2 K2 sK2a sK2b [0] rfl (by decide) (by decide)
      (by decide)⟩⟩

/-- C3 (corrected), counterexample: walking the right-hand side of
`r: a[i] = a[i+1] + a[i-1]` over `0 <= i < 10` stores a read relation for
`a` that contains the pair `(9, 10)` — the access map of `a[i+1]` is
constrained by the iteration domain only — whereas the claim's example
relation `{[i]->[i+1] : 0<=i<9} ∪ {[i]->[i-1] : 1<=i<10}` excludes it. -/
theorem C3_counterexample :
    walk (domN 10) "r" emptySt sC3.expression = .ok stC3 ∧
    optMem (stC3 "r" "a") [9] [10] ∧
    ¬ claimedReadRelC3.mem [9] [10] := by
  refine ⟨rfl, ?_, ?_⟩
  · refine ⟨_, rfl, ?_⟩
    exact Or.inl ((accessRel_mem_single 10 (.add (.var "i") (.intConst 1))
      (fun a => a + 1) (fun a => by simp [evalE, valAt, nameIdx]) [9] [10]).mpr
      ⟨9, rfl, by decide, by decide, by decide⟩)
  · rintro ⟨a, ha, h⟩
    injection ha with h9 _
    subst h9
    rcases h with ⟨-, h, -⟩ | ⟨-, -, h⟩
    · exact absurd h (by decide)
    · exact absurd h (by decide)

/-- C3 (amended): the stored access relation for a (statement, variable)
pair accumulates by union over all textual subscripts of that variable in
the assignment target and right-hand side; for the example statement the
relation stored after walking the right-hand side is exactly
`{[i]->[i+1] : 0<=i<10} ∪ {[i]->[i-1] : 0<=i<10}` (each summand
constrained by the iteration domain, not by the array extent). -/
theorem C3_union_amended :
    (∀ (K : Kernel) (s : Stmt) (st st' : AMFState), runInsn K st s = .ok st' →
      ∀ v x c, optMem (st' s.id v) x c ↔
        optMem (st s.id v) x c ∨
        ∃ idxs, idxs ∈ subsOf v s.assignee ++ subsOf v s.expression ∧
          (accessRel (K.inamesDomain s.within_inames) idxs).mem x c) ∧
    stC3 "r" "a" =
      some ((accessRel (domN 10) [.add (.var "i") (.intConst 1)]).union
        (accessRel (domN 10) [.add (.var "i") (.intConst (-1))])) := by
  constructor
  · intro K s st st' h v x c
    rw [runInsn_char K st s st' h s.id v x c]
    simp
  · rfl

/-- Witness for C3 on the concrete kernel `KC3`. -/
theorem C3_union_amended_witness :
    runInsn KC3 emptySt sC3 = .ok stFullC3 ∧
    (optMem (stFullC3 sC3.id "a") [9] [10] ↔
      optMem (emptySt sC3.id "a") [9] [10] ∨
      ∃ idxs, idxs ∈ subsOf "a" sC3.assignee ++ subsOf "a" sC3.expression ∧
        (accessRel (KC3.inamesDomain sC3.within_inames) idxs).mem [9] [10]) :=
  ⟨rfl, C3_union_amended.1 KC3 sC3 emptySt stFullC3 rfl "a" [9] [10]⟩

/-- C4: an edge appears in the computed `happens_after` map only for an
entry whose dependence relation is non-empty, and it carries exactly that
variable and relation; in particular no edge is recorded for a variable
whose intersection is empty. -/
theorem C4_empty_suppression (st : AMFState) (bid : String)
    (entries : List (String × String)) (m : HAMap)
    (h : BuildsHA st bid entries haEmpty m) :
    (∀ T e, m T = some e →
      ∃ v d, (v, T) ∈ entries ∧ depsOf st bid v T = some d ∧ ¬ d.IsEmpty ∧
        e = ⟨some v, d⟩) ∧
    (∀ T e v, m T = some e → e.variable_name = some v →
      ∃ d, depsOf st bid v T = some d ∧ ¬ d.IsEmpty ∧ e.instances_rel = d) := by
  have h1 : ∀ T e, m T = some e →
      ∃ v d, (v, T) ∈ entries ∧ depsOf st bid v T = some d ∧ ¬ d.IsEmpty ∧
        e = ⟨some v, d⟩ := by
    intro T e hm
    rcases buildsHA_mem st bid entries haEmpty m h T e hm with hgood | hacc
    · exact hgood
    · exact Option.noConfusion hacc
  refine ⟨h1, ?_⟩
  intro T e v hm hv
  obtain ⟨v', d, -, hd, hne, rfl⟩ := h1 T e hm
  injection hv with hv
  subst hv
  exact ⟨d, hd, hne, rfl⟩

/-- Witness for C4 on the concrete kernel `K8`. -/
theorem C4_empty_suppression_witness :
    BuildsHA (runAMFState K8) "u1" (updEntries K8 s8a) haEmpty m8 ∧
    m8 "u2" = some ⟨some "b", dShift3⟩ ∧
    (∃ v d, (v, "u2") ∈ updEntries K8 s8a ∧
      depsOf (runAMFState K8) "u1" v "u2" = some d ∧ ¬ d.IsEmpty ∧
      (⟨some "b", dShift3⟩ : HappensAfter) = ⟨some v, d⟩) :=
  ⟨buildsK8, rfl,
   (C4_empty_suppression _ _ _ _ buildsK8).1 "u2" ⟨some "b", dShift3⟩ rfl⟩

/-- C5: `get_map` on a pair that was never recorded RETURNS (it yields
`ok None` through the defaultdict's default) instead of failing — the
`except KeyError` branch that was meant to raise the "missing access map"
error is unreachable, and no call of `get_map` can fail. -/
theorem C5_get_map_returns_none :
    getMap emptySt "s" "x" = .ok none ∧
    getMap (runAMFState Kself) "s" "zzz" = .ok none ∧
    (∀ st iid v, ∃ r, getMap st iid v = .ok r) :=
  ⟨rfl, rfl, fun st iid v => ⟨st iid v, rfl⟩⟩

/-- C6 (corrected), counterexample: in `K6` the pair (s1, s2) has
non-empty dependences through both `b` and `a`, yet the final map of `s1`
holds a single edge to `s2` — the one for `a`, which overwrote the one for
`b` (the dictionary is keyed by target id only). -/
theorem C6_counterexample :
    BuildsHA (runAMFState K6) "s1" (updEntries K6 s6a) haEmpty mK6 ∧
    depsOf (runAMFState K6) "s1" "b" "s2" = some dShift3 ∧
    depsOf (runAMFState K6) "s1" "a" "s2" = some dShift3 ∧
    ¬ dShift3.IsEmpty ∧
    mK6 "s2" = some ⟨some "a", dShift3⟩ ∧
    ¬ ∃ e, mK6 "s2" = some e ∧ e.variable_name = some "b" := by
  refine ⟨buildsK6, rfl, rfl, dShift3_ne, rfl, ?_⟩
  rintro ⟨e, he, hv⟩
  rw [show mK6 "s2" = some ⟨some "a", dShift3⟩ from rfl] at he
  cases he
  injection hv with hv
  exact absurd hv (by decide)

/-- C6 (amended): the computed map is keyed by target statement id alone:
for the last entry with a given target whose dependence relation is
non-empty, the final map holds exactly that one edge for the target —
edges through other variables for the same target are overwritten, never
kept side by side. -/
theorem C6_single_edge_per_target (st : AMFState) (bid : String)
    (l1 : List (String × String)) (v T : String) (l2 : List (String × String))
    (m : HAMap) (d : IslMap)
    (h : BuildsHA st bid (l1 ++ (v, T) :: l2) haEmpty m)
    (hd : depsOf st bid v T = some d) (hne : ¬ d.IsEmpty)
    (hlast : ∀ v' d', (v', T) ∈ l2 → depsOf st bid v' T = some d' → d'.IsEmpty) :
    m T = some ⟨some v, d⟩ ∧ ∀ e, m T = some e → e = ⟨some v, d⟩ := by
  have h1 := buildsHA_last st bid l1 v T l2 haEmpty m d h hd hne hlast
  refine ⟨h1, ?_⟩
  intro e he
  rw [h1] at he
  cases he
  rfl

/-- Witness for C6 on the concrete kernel `K6`. -/
theorem C6_single_edge_per_target_witness :
    BuildsHA (runAMFState K6) "s1"
      ([("b", "s1"), ("b", "s2"), ("a", "s1")] ++ ("a", "s2") :: []) haEmpty mK6 ∧
    depsOf (runAMFState K6) "s1" "a" "s2" = some dShift3 ∧
    ¬ dShift3.IsEmpty ∧
    mK6 "s2" = some ⟨some "a", dShift3⟩ :=
  ⟨buildsK6, rfl, dShift3_ne,
   (C6_single_edge_per_target (runAMFState K6) "s1"
     [("b", "s1"), ("b", "s2"), ("a", "s1")] "a" "s2" [] mK6 dShift3
     buildsK6 rfl dShift3_ne
     (fun _ _ hmem _ => absurd hmem (List.not_mem_nil _))).1⟩

/-- C7 (corrected), counterexample: the seeded edge of `Kasym` is carried
by the later statement `t2` and targets the earlier `t1`, but its
instances relation contains the pair `([0], [1,0])` whose FIRST component
is an iteration vector of the earlier statement (it is not even
well-dimensioned for the later one): the relation maps earlier to later,
not later to earlier as claimed. -/
theorem C7_counterexample :
    addLexHA Kasym = some KasymOut ∧
    KasymOut.instructions.get? 1 = some (withLexEdge Kasym sAsymA sAsymB) ∧
    (withLexEdge Kasym sAsymA sAsymB).happens_after sAsymA.id =
      some ⟨none, lexEdgeRel Kasym sAsymA sAsymB⟩ ∧
    (lexEdgeRel Kasym sAsymA sAsymB).mem [0] [1, 0] ∧
    ¬ (Kasym.inamesDomain sAsymB.within_inames).mem [0] := by
  refine ⟨rfl, rfl, rfl, lexAsymMem01, ?_⟩
  intro h
  exact absurd h.1 (by decide)

/-- C7 (amended): the instances relation of a seeded edge maps iteration
vectors of the earlier statement (the edge's target) to iteration vectors
of the later statement (the edge's carrier); for compute_data_dependencies
the relation maps the carrier's iterations to the partner's, each side
lying in the domain of the corresponding access map, and never relates a
tuple to itself. -/
theorem C7_direction_amended :
    (∀ (K : Kernel) (sb sa : Stmt) (x y : Pt),
      (lexEdgeRel K sb sa).mem x y →
        (K.inamesDomain sb.within_inames).mem x ∧
        (K.inamesDomain sa.within_inames).mem y) ∧
    (∀ (st : AMFState) (bid v aid : String) (d : IslMap) (x y : Pt),
      depsOf st bid v aid = some d → d.mem x y →
        ∃ bm am, st bid v = some bm ∧ st aid v = some am ∧
          (∃ c, bm.mem x c ∧ am.mem y c) ∧ x ≠ y) := by
  constructor
  · intro K sb sa x y h
    exact h.1
  · intro st bid v aid d x y hd hm
    obtain ⟨bm, am, hb, ha, rfl⟩ := depsOf_eq_some hd
    obtain ⟨hc, hne⟩ := depsRaw_mem_imp bm am x y hm
    exact ⟨bm, am, hb, ha, hc, hne⟩

/-- Witness for C7 on the concrete kernels `Kasym` and `Kself`. -/
theorem C7_direction_amended_witness :
    ((lexEdgeRel Kasym sAsymA sAsymB).mem [0] [1, 0] ∧
     (Kasym.inamesDomain sAsymA.within_inames).mem [0] ∧
     (Kasym.inamesDomain sAsymB.within_inames).mem [1, 0]) ∧
    (depsOf (runAMFState Kself) "s" "a" "s" = some dSelf ∧ dSelf.mem [0] [1] ∧
     ∃ bm am, runAMFState Kself "s" "a" = some bm ∧
       runAMFState Kself "s" "a" = some am ∧
       (∃ c, bm.mem [0] c ∧ am.mem [1] c) ∧ ([0] : Pt) ≠ [1]) :=
  ⟨⟨lexAsymMem01,
    (C7_direction_amended.1 Kasym sAsymA sAsymB [0] [1, 0] lexAsymMem01).1,
    (C7_direction_amended.1 Kasym sAsymA sAsymB [0] [1, 0] lexAsymMem01).2⟩,
   ⟨rfl, dSelf_mem01,
    C7_direction_amended.2 (runAMFState Kself) "s" "a" "s" dSelf [0] [1]
      rfl dSelf_mem01⟩⟩

/-- C8 (corrected), counterexample: in `K8` an edge is recorded between
`u1` and `u2` for variable `b`, which NEITHER statement writes — the pair
is read-after-read, so it fits none of read-after-write, write-after-read,
write-after-write; and no dependency kind is recorded anywhere. -/
theorem C8_counterexample :
    BuildsHA (runAMFState K8) "u1" (updEntries K8 s8a) haEmpty m8 ∧
    m8 "u2" = some ⟨some "b", dShift3⟩ ∧
    ¬ dShift3.IsEmpty ∧
    "b" ∉ Stmt.writeDependencyNames s8a ∧
    "b" ∉ Stmt.writeDependencyNames s8b :=
  ⟨buildsK8, rfl, dShift3_ne, by decide, by decide⟩

/-- C8 (amended): a recorded edge carries exactly a variable name and an
instances relation — a `HappensAfter` value is fully determined by those
two fields, so no dependency kind is (or can be) recorded alongside
them. -/
theorem C8_edge_contents_amended (st : AMFState) (bid : String)
    (entries : List (String × String)) (m : HAMap)
    (h : BuildsHA st bid entries haEmpty m) :
    (∀ T e, m T = some e →
      ∃ v d, e.variable_name = some v ∧ e.instances_rel = d ∧
        depsOf st bid v T = some d ∧ ¬ d.IsEmpty) ∧
    (∀ e1 e2 : HappensAfter, e1.variable_name = e2.variable_name →
      e1.instances_rel = e2.instances_rel → e1 = e2) := by
  constructor
  · intro T e hm
    rcases buildsHA_mem st bid entries haEmpty m h T e hm with
      ⟨v, d, -, hd, hne, rfl⟩ | hacc
    · exact ⟨v, d, rfl, rfl, hd, hne⟩
    · exact Option.noConfusion hacc
  · intro e1 e2 h1 h2
    cases e1; cases e2
    cases h1; cases h2
    rfl

/-- Witness for C8 on the concrete kernel `K8`. -/
theorem C8_edge_contents_amended_witness :
    BuildsHA (runAMFState K8) "u1" (updEntries K8 s8a) haEmpty m8 ∧
    m8 "u2" = some ⟨some "b", dShift3⟩ ∧
    (∃ v d, (⟨some "b", dShift3⟩ : HappensAfter).variable_name = some v ∧
      (⟨some "b", dShift3⟩ : HappensAfter).instances_rel = d ∧
      depsOf (runAMFState K8) "u1" v "u2" = some d ∧ ¬ d.IsEmpty) :=
  ⟨buildsK8, rfl,
   (C8_edge_contents_amended _ _ _ _ buildsK8).1 "u2" ⟨some "b", dShift3⟩ rfl⟩

/-- C9 (corrected), counterexample: `compute_data_dependencies` on the
one-statement kernel `Kself` (`s: a[i] = a[i+1]`) produces for `s` an edge
whose target is `s` itself, with variable `a` and a non-empty relation:
the candidate set is not restricted to other statements. -/
theorem C9_counterexample :
    ComputeDataDeps Kself KselfOut ∧
    sSelf.id = "s" ∧
    ({ sSelf with happens_after := mSelf } : Stmt).happens_after "s" =
      some ⟨some "a", dSelf⟩ ∧
    ¬ dSelf.IsEmpty :=
  ⟨computeKself, rfl, rfl, dSelf_ne⟩

/-- C9 (amended): the candidate partner set for a statement and a
variable is all statements that read or write the variable, including the
statement itself — so self-edges are possible (see the counterexample). -/
theorem C9_partners_amended (K : Kernel) (b : Stmt) (v : String)
    (hb : b ∈ K.instructions)
    (hv : v ∈ b.readDependencyNames ∨ v ∈ b.writeDependencyNames) :
    b.id ∈ accessedBy K v := by
  rw [accessedBy, List.mem_dedup, List.mem_append]
  rcases hv with hv | hv
  · exact Or.inl (List.mem_map.mpr
      ⟨b, List.mem_filter.mpr ⟨hb, by simpa using hv⟩, rfl⟩)
  · exact Or.inr (List.mem_map.mpr
      ⟨b, List.mem_filter.mpr ⟨hb, by simpa using hv⟩, rfl⟩)

/-- Witness for C9 on the concrete kernel `Kself`. -/
theorem C9_partners_amended_witness :
    sSelf ∈ Kself.instructions ∧
    ("a" ∈ sSelf.readDependencyNames ∨ "a" ∈ sSelf.writeDependencyNames) ∧
    sSelf.id ∈ accessedBy Kself "a" :=
  ⟨show sSelf ∈ [sSelf] from List.mem_singleton_self _,
   Or.inl (by decide),
   C9_partners_amended Kself sSelf "a"
     (show sSelf ∈ [sSelf] from List.mem_singleton_self _) (Or.inl (by decide))⟩

/-- C10: the computation never reads the incoming `happens_after` maps —
replacing them all changes neither the access-map pass nor the visited
entries nor the computed maps — and a statement all of whose entries have
empty dependence relations ends with the empty map. -/
theorem C10_wholesale_replacement (K : Kernel) (f : Stmt → HAMap) :
    runAMF (mapHA K f) = runAMF K ∧
    (∀ (b : Stmt) (h : HAMap),
      updEntries (mapHA K f) { b with happens_after := h } = updEntries K b) ∧
    (∀ K1 K2, ComputeDataDeps (mapHA K f) K1 → ComputeDataDeps K K2 →
      List.Forall₂ (fun a b => a.happens_after = b.happens_after)
        K1.instructions K2.instructions) ∧
    (∀ (st : AMFState) (bid : String) (entries : List (String × String))
       (m : HAMap), BuildsHA st bid entries haEmpty m →
      (∀ v T d, (v, T) ∈ entries → depsOf st bid v T = some d → d.IsEmpty) →
      m = haEmpty) := by
  refine ⟨runAMF_mapHA K f, fun b h => updEntries_mapHA K f b h, ?_, ?_⟩
  · intro K1 K2 h1 h2
    obtain ⟨st1, hok1, hf1, -⟩ := h1
    obtain ⟨st2, hok2, hf2, -⟩ := h2
    rw [runAMF_mapHA K f] at hok1
    have heq : (Except.ok st1 : Except String AMFState) = .ok st2 :=
      hok1.symm.trans hok2
    injection heq with hst
    subst hst
    exact forall₂_ha_eq K f st1 K.instructions K1.instructions K2.instructions
      hf1 hf2
  · intro st bid entries m h hall
    funext T
    exact buildsHA_unchanged st bid entries haEmpty m h T
      (fun v d hmem hd => hall v T d hmem hd)

/-- Witness for C10 on the concrete kernel `Kself` with every incoming
`happens_after` map replaced by a non-trivial one. -/
theorem C10_wholesale_replacement_witness :
    ComputeDataDeps (mapHA Kself (fun _ => mSelf)) KselfOut ∧
    ComputeDataDeps Kself KselfOut ∧
    List.Forall₂ (fun a b => a.happens_after = b.happens_after)
      KselfOut.instructions KselfOut.instructions :=
  ⟨computeKselfMapped, computeKself,
   (C10_wholesale_replacement Kself (fun _ => mSelf)).2.2.1 KselfOut KselfOut
     computeKselfMapped computeKself⟩

end LoopyDep
